import Mathlib

/-!
Verification of the Factorio locale merge / translation-exchange pipeline.

Shallow embedding of the Python sources:
  * `main_gpt.py` — `parse_ru_lines`, `merge_locale_files` (with its inner
    `add_obsolete_section_lines` and `collapse_blank_runs`);
  * `factorio_gemini_translate.py` — `_join_cfg_files`, `_split_cfg_files`,
    `_extract_cfg_keys`, `_validate_same_keys`, `_has_all_markers`,
    the retry loop of `translate_cfg_bundle`, and
    `translate_mod_locales_inplace`.

A file is modelled as its list of physical lines (`Text := List Line`),
a line as its list of characters (`Line := List Char`); the on-disk
string is the lines interleaved with the newline character.  Whitespace
classes are the ASCII part of Python's `\s` / `str.strip()` class (the
inputs of interest are ASCII; Unicode spaces behave like the excluded
exotic ASCII ones for every statement below).
-/

namespace FactorioLocale

abbrev Line := List Char
abbrev Text := List Line

/-- ASCII part of Python's whitespace class used by `str.strip()` and `\s`. -/
def pyIsSpace (c : Char) : Bool :=
  c = ' ' || c = '\t' || c = '\n' || c = '\r' || c = '\x0b' || c = '\x0c'

/-- `line.lstrip("; \t")`. -/
def stripLead (l : Line) : Line :=
  l.dropWhile (fun c => c = ';' || c = ' ' || c = '\t')

/-- Python `str.strip()` (whitespace from both ends). -/
def pyStrip (l : Line) : Line :=
  ((l.dropWhile pyIsSpace).reverse.dropWhile pyIsSpace).reverse

/-- `line.split("=", 1)[0]`. -/
def beforeEq (l : Line) : Line := l.takeWhile (fun c => c ≠ '=')

/-- `stripped.startswith("[") and stripped.endswith("]")` after
`lstrip("; \t")` — the section-header test used throughout the sources. -/
def isHeaderLine (l : Line) : Bool :=
  decide ((stripLead l).head? = some '[' ∧ (stripLead l).getLast? = some ']')

/-- `re.sub(r"^[;\s]+", "", line)` — maximal prefix of `;`/whitespace
characters removed (used to revive a tombstoned translation). -/
def regexStripLead (l : Line) : Line :=
  l.dropWhile (fun c => c = ';' || pyIsSpace c)

/-! ### Ordered dictionaries (Python `dict` preserves insertion order) -/

/-- Lookup in an insertion-ordered association list (Python `d[k]` / `k in d`). -/
def alookup {α : Type} (k : Line) : List (Line × α) → Option α
  | [] => none
  | (k', v) :: t => if k' = k then some v else alookup k t

/-- `d[k] = v`: update in place if present, else append (dict insertion order). -/
def aset {α : Type} (k : Line) (v : α) : List (Line × α) → List (Line × α)
  | [] => [(k, v)]
  | (k', v') :: t => if k' = k then (k', v) :: t else (k', v') :: aset k v t

/-- `d.setdefault(k, v)`. -/
def setdefault {α : Type} (k : Line) (v : α) (m : List (Line × α)) : List (Line × α) :=
  if (alookup k m).isSome then m else m ++ [(k, v)]

/-! ### `parse_ru_lines` (`main_gpt.py` 81–110, `interactive_translate.py` 42–69) -/

structure RuParse where
  ruSections : List (Line × List Line)
  ruKeys : List (Line × List (Line × Line))
  curr : Option Line
  deriving Repr, DecidableEq

/-- One iteration of the `for line in lines` loop of `parse_ru_lines`. -/
def parseRuStep (st : RuParse) (line : Line) : RuParse :=
  let stripped := stripLead line
  if isHeaderLine line then
    let s1 := setdefault stripped [] st.ruSections
    let k1 := setdefault stripped [] st.ruKeys
    { ruSections := aset stripped (((alookup stripped s1).getD []) ++ [line]) s1
      ruKeys := k1
      curr := some stripped }
  else
    match st.curr with
    | some cs =>
      let s1 := aset cs (((alookup cs st.ruSections).getD []) ++ [line]) st.ruSections
      if '=' ∈ line then
        if '=' ∈ stripLead line then
          let key := pyStrip (beforeEq (stripLead line))
          { ruSections := s1
            ruKeys := aset cs (aset key line ((alookup cs st.ruKeys).getD [])) st.ruKeys
            curr := st.curr }
        else { st with ruSections := s1 }
      else { st with ruSections := s1 }
    | none => st

/-- `parse_ru_lines(lines)` returning `(ru_sections, ru_keys)`. -/
def parseRuLines (lines : Text) : List (Line × List Line) × List (Line × List (Line × Line)) :=
  let st := lines.foldl parseRuStep ⟨[], [], none⟩
  (st.ruSections, st.ruKeys)

/-! ### `merge_locale_files` (`main_gpt.py` 113–246), destination file present -/

structure MergeSt where
  curr : Option Line
  enSections : List Line
  enKeys : List (Line × List Line)
  out : Text
  deriving Repr, DecidableEq

/-- `add_obsolete_section_lines` (`main_gpt.py` 139–165): the lines it
appends to `output_lines` for one closing section. -/
def addObsoleteSectionLines (ruSections : List (Line × List Line))
    (enKeys : List (Line × List Line)) (sec : Line) : Text :=
  match alookup sec ruSections with
  | none => []
  | some lns =>
    lns.foldl (fun obsolete line =>
      if isHeaderLine line then obsolete
      else if '=' ∈ line then
        if '=' ∈ stripLead line then
          let key := pyStrip (beforeEq (stripLead line))
          if key ∈ (alookup sec enKeys).getD [] then obsolete
          else obsolete ++ [if line.head? = some ';' then line else [';', ' '] ++ line]
        else obsolete ++ [line]
      else obsolete ++ [line]) []

/-- The body of the `while i < len(src_lines)` loop for one source line,
without the section-boundary check. -/
def mergeStepLine (ruKeys : List (Line × List (Line × Line))) (st : MergeSt)
    (line : Line) : MergeSt :=
  let stripped := stripLead line
  if isHeaderLine line then
    { curr := some stripped
      enSections := if stripped ∈ st.enSections then st.enSections
                    else st.enSections ++ [stripped]
      enKeys := setdefault stripped [] st.enKeys
      out := st.out ++ [line] }
  else
    match st.curr with
    | some cs =>
      if '=' ∈ line ∧ line.head? ≠ some ';' then
        let key := pyStrip (beforeEq line)
        let ks := (alookup cs st.enKeys).getD []
        let enKeys' := aset cs (if key ∈ ks then ks else ks ++ [key]) st.enKeys
        let emitted :=
          match alookup cs ruKeys with
          | some km =>
            match alookup key km with
            | some ruLine =>
              if ruLine.head? = some ';' then regexStripLead ruLine else ruLine
            | none => line
          | none => line
        { st with enKeys := enKeys', out := st.out ++ [emitted] }
      else { st with out := st.out ++ [line] }
    | none => { st with out := st.out ++ [line] }

/-- The source walk of `merge_locale_files` (`main_gpt.py` 167–214): each
line is processed, then, when the next line opens a new section or the
file ends, the obsolete lines of the current section are appended and the
current section is reset. -/
def mergeWalk (ruSections : List (Line × List Line))
    (ruKeys : List (Line × List (Line × Line))) : Text → MergeSt → MergeSt
  | [], st => st
  | line :: rest, st =>
    let st1 := mergeStepLine ruKeys st line
    let boundary : Bool :=
      match rest with
      | [] => true
      | n :: _ => isHeaderLine n
    let st2 :=
      if boundary then
        match st1.curr with
        | some cs =>
          { st1 with
            out := st1.out ++ addObsoleteSectionLines ruSections st1.enKeys cs
            curr := none }
        | none => st1
      else st1
    mergeWalk ruSections ruKeys rest st2

/-- `collapse_blank_runs` (`main_gpt.py` 223–234), recursion on the lines
with the current blank-run length. -/
def collapseGo (maxConsecutive : Nat) (run : Nat) : Text → Text
  | [] => []
  | l :: ls =>
    if l = [] then
      if run + 1 ≤ maxConsecutive then l :: collapseGo maxConsecutive (run + 1) ls
      else collapseGo maxConsecutive (run + 1) ls
    else l :: collapseGo maxConsecutive 0 ls

def collapseBlankRuns (maxConsecutive : Nat) (lines : Text) : Text :=
  collapseGo maxConsecutive 0 lines

/-- The trailing `while output_lines and output_lines[-1] == "": pop()`. -/
def dropTrailingBlanks (lines : Text) : Text :=
  (lines.reverse.dropWhile (fun l => decide (l = []))).reverse

/-- `merge_locale_files(src_path, dst_path)` as a function of the two
files' line lists, when the destination exists (the written file is the
returned lines joined with the newline character plus one final
newline). -/
def mergeLocaleFiles (srcLines dstLines : Text) : Text :=
  let p := parseRuLines dstLines
  let st := mergeWalk p.1 p.2 srcLines ⟨none, [], [], []⟩
  let withRuOnly := p.1.foldl
    (fun acc sp => if sp.1 ∈ st.enSections then acc else acc ++ sp.2 ++ [[]]) st.out
  dropTrailingBlanks (collapseBlankRuns 1 withRuOnly)

/-! ### Bundle protocol (`factorio_gemini_translate.py` 127–161)

`_join_cfg_files` produces a payload string; `_split_cfg_files` first runs
`bundle_text.splitlines()` on it, and Python's `splitlines` breaks lines
not only at the newline but also at `\r`, `\v`, `\f`, the separator
controls `\x1c`–`\x1e`, NEL and the Unicode line and paragraph
separators.  The model therefore works with both representations: a line
list denotes the string `joinNL` (each line followed by one newline), and
`pySplitlines` is `str.splitlines` on such strings. -/

/-- The characters at which Python's `str.splitlines` starts a new line:
newline, carriage return, vertical tab, form feed, the separator
controls `\x1c`–`\x1e`, NEL (`U+0085`) and the Unicode line and
paragraph separators (`U+2028`, `U+2029`). -/
def pyLineBreak (c : Char) : Bool :=
  c = '\n' || c = '\r' || c = '\x0b' || c = '\x0c' || c = '\x1c' || c = '\x1d' ||
    c = '\x1e' || c = '\u0085' || c = '\u2028' || c = '\u2029'

/-- `str.splitlines`: accumulate the current line and break at every
line-break character; after a carriage return an immediately following
newline is consumed silently (`\r\n` is one break), and a trailing
break emits no final empty line. -/
def pySplitlinesGo (skipNL : Bool) (cur : Line) : Line → Text
  | [] => if cur = [] then [] else [cur]
  | c :: rest =>
    if skipNL ∧ c = '\n' then pySplitlinesGo false cur rest
    else if pyLineBreak c then cur :: pySplitlinesGo (decide (c = '\r')) [] rest
    else pySplitlinesGo false (cur ++ [c]) rest

def pySplitlines (s : Line) : Text := pySplitlinesGo false [] s

/-- The payload string denoted by a line list: every line followed by one
newline (`_join_cfg_files` ends its payload with exactly one newline). -/
def joinNL (t : Text) : Line := (t.map (fun l => l ++ ['\n'])).flatten

/-- A line free of every character `str.splitlines` breaks at. -/
def lineBreakFree (l : Line) : Prop := ∀ c ∈ l, pyLineBreak c = false

/-- `"; ===FILE: " + name + " ==="`. -/
def beginMarker (n : Line) : Line :=
  "; ===FILE: ".data ++ n ++ " ===".data

/-- `"; ===END FILE: " + name + " ==="`. -/
def endMarker (n : Line) : Line :=
  "; ===END FILE: ".data ++ n ++ " ===".data

/-- `text.rstrip("\n")` at the line-list level (an empty final result
denotes the empty string). -/
def rstripNL (t : Text) : Text := dropTrailingBlanks t

/-- The lines contributed to the joined payload by one file's
`text.rstrip("\n")` (an empty string still contributes one empty line
between the separators of `"\n".join`). -/
def chunkOf (t : Text) : Text :=
  let s := rstripNL t
  if s = [] then [[]] else s

/-- `_join_cfg_files(files)`: line list of the produced payload (the
payload string is these lines joined by newlines plus one final
newline). -/
def joinCfgFiles (files : List (Line × Text)) : Text :=
  rstripNL (files.foldl
    (fun parts nt => parts ++ [beginMarker nt.1] ++ chunkOf nt.2 ++ [endMarker nt.1] ++ [[]])
    [])

/-- Matcher of the suffix `\s*===\s*$` of `FILE_MARKER_RE`.  The `\s*`
cannot backtrack because it is followed by the non-space `=`. -/
def tailMatch (s : Line) : Bool :=
  let s1 := s.dropWhile pyIsSpace
  List.isPrefixOf ['=', '=', '='] s1 && (s1.drop 3).all pyIsSpace

/-- Lazy search for the shortest non-empty group `(.+?)` whose remainder
matches `\s*===\s*$`, as Python's backtracking engine performs it. -/
def groupGo (acc : Line) : Line → Option Line
  | [] => none
  | c :: rest => if tailMatch rest then some (acc ++ [c]) else groupGo (acc ++ [c]) rest

def firstGroup (s : Line) : Option Line := groupGo [] s

/-- The greedy `\s*` before the group gives characters back one at a time
(longest first) when the lazy group fails everywhere. -/
def searchFrom (r4 : Line) : Nat → Option Line
  | 0 => firstGroup r4
  | i + 1 =>
    match firstGroup (r4.drop (i + 1)) with
    | some g => some g
    | none => searchFrom r4 i

/-- `FILE_MARKER_RE.match(line)` for
`^\s*;\s*===FILE:\s*(.+?)\s*===\s*$`, returning `group(1)`.  The two
leading `\s*` are committed (each is followed by a non-space literal). -/
def matchFileMarker (l : Line) : Option Line :=
  match l.dropWhile pyIsSpace with
  | ';' :: r2 =>
    let r3 := r2.dropWhile pyIsSpace
    if List.isPrefixOf "===FILE:".data r3 then
      let r4 := r3.drop 8
      searchFrom r4 (r4.takeWhile pyIsSpace).length
    else none
  | _ => none

/-- `line.strip().startswith("; ===END FILE:")`. -/
def isEndMark (l : Line) : Bool :=
  List.isPrefixOf "; ===END FILE:".data (pyStrip l)

structure SplitSt where
  out : List (Line × Text)
  curr : Option Line
  buf : Text
  deriving Repr, DecidableEq

/-- One iteration of the line loop of `_split_cfg_files`. -/
def splitCfgStep (st : SplitSt) (line : Line) : SplitSt :=
  match matchFileMarker line with
  | some nm =>
    let out' :=
      match st.curr with
      | some c => aset c st.buf st.out
      | none => st.out
    ⟨out', some nm, []⟩
  | none =>
    match st.curr with
    | some c =>
      if isEndMark line then ⟨aset c st.buf st.out, none, []⟩
      else ⟨st.out, some c, st.buf ++ [line]⟩
    | none => st

/-- `_split_cfg_files(bundle_text)`; each returned value denotes
`"\n".join(content).rstrip("\n") + "\n"`, i.e. the stored line list with
trailing blank lines removed and one implicit final newline. -/
def splitCfgFiles (bundleLines : Text) : List (Line × Text) :=
  let st := bundleLines.foldl splitCfgStep ⟨[], none, []⟩
  let fin :=
    match st.curr with
    | some c => aset c st.buf st.out
    | none => st.out
  fin.map (fun p => (p.1, rstripNL p.2))

/-! ### Exchange validator (`factorio_gemini_translate.py` 164–225) -/

/-- `_extract_cfg_keys` recursion with the running `section`. -/
def extractGo (sec : Line) : Text → List (Line × Line)
  | [] => []
  | raw :: rest =>
    let line := pyStrip raw
    if line = [] ∨ line.head? = some ';' ∨ line.head? = some '#' then extractGo sec rest
    else if line.head? = some '[' ∧ line.getLast? = some ']' then extractGo line rest
    else if '=' ∈ line then
      let key := pyStrip (beforeEq line)
      if key ≠ [] then (sec, key) :: extractGo sec rest else extractGo sec rest
    else extractGo sec rest

/-- `_extract_cfg_keys(text)`: ordered `(section, key)` pairs of the
non-comment, non-blank `key=value` lines (initial section is `""`). -/
def extractCfgKeys (t : Text) : List (Line × Line) := extractGo [] t

/-- `_validate_same_keys(input_text, output_text)`: the boolean verdict
and the missing-pairs list interpolated into the diagnostic message
(empty on success). -/
def validateSameKeys (input output : Text) : Bool × List (Line × Line) :=
  let inKeys := extractCfgKeys input
  let outKeys := extractCfgKeys output
  if outKeys.length < inKeys.length then
    (false, (inKeys.filter (fun k => decide (k ∉ outKeys))).take 50)
  else
    let missing := inKeys.filter (fun k => decide (k ∉ outKeys))
    if missing ≠ [] then (false, missing.take 50)
    else (true, [])

/-- Python's substring test `p in s` for one line. -/
def seqIn (p s : Line) : Bool :=
  (List.range (s.length + 1)).any (fun i => List.isPrefixOf p (s.drop i))

/-- `_has_all_markers(bundle_text, expected_files)`: the markers contain
no newline, so substring-of-payload is substring-of-some-line. -/
def hasAllMarkers (bundleLines : Text) (expected : List Line) : Bool :=
  expected.all (fun fn =>
    bundleLines.any (fun l => seqIn (beginMarker fn) l) &&
    bundleLines.any (fun l => seqIn (endMarker fn) l))

/-- The expected file names scanned from the input bundle at the top of
`translate_cfg_bundle` (lines matching `FILE_MARKER_RE`). -/
def expectedFilesOf (bundle : Text) : List Line := bundle.filterMap matchFileMarker

inductive ExchangeOutcome
  | accepted (out : Text)
  | keyMismatch (missing : List (Line × Line))
  | markerDamage
  deriving Repr, DecidableEq

/-- The classification a single returned response receives inside one
attempt of `translate_cfg_bundle` (`factorio_gemini_translate.py`
318–345): key validation runs first, the marker check second. -/
def classifyResponse (input out : Text) : ExchangeOutcome :=
  let v := validateSameKeys input out
  if v.1 = false then .keyMismatch v.2
  else
    let expected := expectedFilesOf input
    if expected ≠ [] ∧ hasAllMarkers out expected = false then .markerDamage
    else .accepted out

/-! ### Retry loop of `translate_cfg_bundle`
(`factorio_gemini_translate.py` 254–360)

One external call happens per iteration of `for attempt in
range(max_retries + 1)`; the call's outcome is supplied by an oracle
indexed by the attempt number.  A `.resp` outcome models a returned
(code-fence-stripped) text, `.quotaErr` an exception whose message
carries `429`/`RESOURCE_EXHAUSTED`, `.otherErr` any other exception. -/

inductive CallOut
  | resp (out : Text)
  | quotaErr
  | otherErr
  deriving Repr, DecidableEq

/-- The system instruction sent with a call: the base prompt, or the base
prompt augmented with the key-repair or marker-repair notice built after
a structural rejection. -/
inductive SysInstr
  | base
  | keysRepair (missing : List (Line × Line))
  | markersRepair
  deriving Repr, DecidableEq

inductive LoopResult
  | success (out : Text)
  | exhausted
  | raisedQuota
  | raisedOther
  deriving Repr, DecidableEq

/-- Trace of one run of the retry loop: final result, the
`(attempt, instructions)` pair of every external call made (the payload
never changes), and the number of `sleep(sleep_on_429_sec)` cooldowns. -/
structure LoopTrace where
  result : LoopResult
  calls : List (Nat × SysInstr)
  sleeps : Nat
  deriving Repr, DecidableEq

/-- The loop body; `fuel` is the number of remaining iterations of
`range(max_retries + 1)` (`fuel = maxRetries + 1 - attempt`); running out
of fuel is the fall-through `raise RuntimeError(...)`. -/
def loopGo (input : Text) (maxRetries : Nat) (oracle : Nat → CallOut) :
    Nat → Nat → SysInstr → LoopTrace
  | 0, _, _ => ⟨.exhausted, [], 0⟩
  | fuel + 1, attempt, sys =>
    match oracle attempt with
    | .resp out =>
      match classifyResponse input out with
      | .accepted o => ⟨.success o, [(attempt, sys)], 0⟩
      | .keyMismatch m =>
        let t := loopGo input maxRetries oracle fuel (attempt + 1) (.keysRepair m)
        ⟨t.result, (attempt, sys) :: t.calls, t.sleeps⟩
      | .markerDamage =>
        let t := loopGo input maxRetries oracle fuel (attempt + 1) .markersRepair
        ⟨t.result, (attempt, sys) :: t.calls, t.sleeps⟩
    | .quotaErr =>
      if attempt < maxRetries then
        let t := loopGo input maxRetries oracle fuel (attempt + 1) sys
        ⟨t.result, (attempt, sys) :: t.calls, t.sleeps + 1⟩
      else ⟨.raisedQuota, [(attempt, sys)], 0⟩
    | .otherErr => ⟨.raisedOther, [(attempt, sys)], 0⟩

/-- The whole retry loop of `translate_cfg_bundle`. -/
def translateCfgBundleLoop (input : Text) (maxRetries : Nat)
    (oracle : Nat → CallOut) : LoopTrace :=
  loopGo input maxRetries oracle (maxRetries + 1) 0 .base

/-! ### `translate_mod_locales_inplace`
(`factorio_gemini_translate.py` 445–521)

The destination directory is the mutable state (`disk`); `callResult i`
is the outcome of the `i`-th invocation of `translate_cfg_bundle`
(`none` models the call raising — its retries already exhausted). -/

inductive TErr
  | callFailed
  | badMarkers
  | badSplit
  deriving Repr, DecidableEq

structure InplaceOut where
  err : Option TErr
  disk : List (Line × Text)
  calls : Nat
  logged : Bool
  deriving Repr, DecidableEq

/-- `write_cfg_files_to_dir` (376–381): overwrite each named file. -/
def writeCfgFilesToDir (disk : List (Line × Text)) (files : List (Line × Text)) :
    List (Line × Text) :=
  files.foldl (fun d nt => aset nt.1 nt.2 d) disk

/-- `len(bundle)` for a payload whose string is the lines joined by
newlines plus one final newline. -/
def bundleStrLen (t : Text) : Nat := (t.map List.length).sum + t.length

/-- `set(translated_files.keys()) == set(files.keys())`. -/
def sameNames (a b : List (Line × Text)) : Bool :=
  decide ((a.map Prod.fst) ⊆ (b.map Prod.fst) ∧ (b.map Prod.fst) ⊆ (a.map Prod.fst))

/-- The per-file fallback loop (497–515): each file is bundled alone,
translated, checked and written immediately; the log entry is appended
once after the loop. -/
def fallbackGo (callResult : Nat → Option Text) :
    List (Line × Text) → Nat → List (Line × Text) → InplaceOut
  | [], i, disk => ⟨none, disk, i, true⟩
  | (name, _text) :: rest, i, disk =>
    match callResult i with
    | none => ⟨some .callFailed, disk, i + 1, false⟩
    | some tb =>
      if hasAllMarkers tb [name] = false then ⟨some .badMarkers, disk, i + 1, false⟩
      else
        match alookup name (splitCfgFiles tb) with
        | none => ⟨some .badSplit, disk, i + 1, false⟩
        | some t => fallbackGo callResult rest (i + 1) (writeCfgFilesToDir disk [(name, t)])

/-- `translate_mod_locales_inplace` given the loaded `.cfg` files of the
destination directory (`files`), with `log_on_success = True`. -/
def translateModLocalesInplace (files : List (Line × Text)) (maxCharsSingleCall : Nat)
    (callResult : Nat → Option Text) (disk0 : List (Line × Text)) : InplaceOut :=
  if files = [] then ⟨none, disk0, 0, false⟩
  else
    let bundle := joinCfgFiles files
    let expected := files.map Prod.fst
    if bundleStrLen bundle ≤ maxCharsSingleCall then
      match callResult 0 with
      | none => ⟨some .callFailed, disk0, 1, false⟩
      | some tb =>
        if hasAllMarkers tb expected = false then ⟨some .badMarkers, disk0, 1, false⟩
        else
          let tf := splitCfgFiles tb
          if tf = [] ∨ sameNames tf files = false then ⟨some .badSplit, disk0, 1, false⟩
          else ⟨none, writeCfgFilesToDir disk0 tf, 1, true⟩
    else fallbackGo callResult files 0 disk0

/-! ### Derived notions used to state the claims -/

/-- `(section, key)` pairs of the active (non-comment-prefixed)
`key=value` lines of a file, with the section tracked by the same
stripped-header rule as the parser and the key normalized as
`parse_ru_lines` normalizes it (`lstrip("; \t")`, split at the first
`=`, `strip()`). -/
def activeKeysFrom (curr : Option Line) : Text → List (Line × Line)
  | [] => []
  | l :: ls =>
    if isHeaderLine l then activeKeysFrom (some (stripLead l)) ls
    else
      match curr with
      | some s =>
        if '=' ∈ l ∧ l.head? ≠ some ';' then
          (s, pyStrip (beforeEq (stripLead l))) :: activeKeysFrom (some s) ls
        else activeKeysFrom (some s) ls
      | none => activeKeysFrom none ls

def activeKeys (t : Text) : List (Line × Line) := activeKeysFrom none t

/-- The comment-prefixing applied to an obsolete destination line
(`if not line.startswith(";"): line = "; " + line`). -/
def commentize (l : Line) : Line :=
  if l.head? = some ';' then l else [';', ' '] ++ l

/-- The source walk's final section set and per-section key sets do not
depend on the destination data (only `output_lines` does), so the
`en_sections` / `en_keys` accumulated by `merge_locale_files` can be
computed with empty destination data. -/
def srcEnSections (src : Text) : List Line :=
  (mergeWalk [] [] src ⟨none, [], [], []⟩).enSections

def srcEnKeys (src : Text) : List (Line × List Line) :=
  (mergeWalk [] [] src ⟨none, [], [], []⟩).enKeys

/-- Concatenation, in insertion order, of the line lists stored for all
sections by `parse_ru_lines`. -/
def sectionsConcat (t : Text) : Text :=
  (((parseRuLines t).1).map Prod.snd).flatten

/-- Whitespace tameness: every whitespace character of the file is a
plain space or tab (no vertical tab, form feed or carriage return, which
`[;\s]+` and `str.strip()` treat differently from `lstrip("; \t")`). -/
def tameText (t : Text) : Prop :=
  ∀ l ∈ t, ∀ c ∈ l, pyIsSpace c = true → c = ' ' ∨ c = '\t'

/-- Shorthand for building a line from a string literal. -/
def lineOf (s : String) : Line := s.data

/-- Well-formedness of a bundle filename: non-empty with no leading or
trailing whitespace (the marker regex strips whitespace around the
captured name, so padded names do not round-trip). -/
def cleanName (n : Line) : Prop :=
  n ≠ [] ∧ (∀ c, n.head? = some c → pyIsSpace c = false) ∧
  (∀ c, n.getLast? = some c → pyIsSpace c = false)

/-- A content line the splitter treats as plain content: it matches the
begin-marker regex nowhere and does not strip to an end-marker head. -/
def benignLine (l : Line) : Prop :=
  matchFileMarker l = none ∧ isEndMark l = false

/-- The lines one file contributes to the joined payload. -/
def blockOf (p : Line × Text) : Text :=
  [beginMarker p.1] ++ chunkOf p.2 ++ [endMarker p.1] ++ [[]]

/-- The section tracked by `activeKeysFrom` after reading some lines. -/
def headerState (curr : Option Line) (lines : Text) : Option Line :=
  lines.foldl (fun c l => if isHeaderLine l then some (stripLead l) else c) curr

/-- What `parse_ru_lines` stores about each registered key: the stored
line has an `=`, is no section header, normalizes to the stored key, is
a line of the file, and belongs to the stored line list of its section. -/
def ruKeyFacts (P : Line → Prop) (st : RuParse) : Prop :=
  ∀ S km K l, alookup S st.ruKeys = some km → alookup K km = some l →
    '=' ∈ l ∧ isHeaderLine l = false ∧ K = pyStrip (beforeEq (stripLead l)) ∧ P l ∧
    (∃ lns, alookup S st.ruSections = some lns ∧ l ∈ lns)

/-- The line the source walk emits for an active `key=value` source line:
the stored Russian line (comment-stripped when it starts with `;`) when
the destination parse holds the key, the source line otherwise. -/
def emittedLineFor (ruKeys : List (Line × List (Line × Line))) (cs line : Line) : Line :=
  match alookup cs ruKeys with
  | some km =>
    match alookup (pyStrip (beforeEq line)) km with
    | some ruLine => if ruLine.head? = some ';' then regexStripLead ruLine else ruLine
    | none => line
  | none => line

/-! ### Concrete inputs used by single counterexample runs -/

def c1src : Text := [lineOf "[a]", lineOf "; c", lineOf "k=v"]

def c5src : Text := [lineOf "[s]", lineOf "[k =v"]

def c5dst : Text := [lineOf "[s]", ';' :: '\x0b' :: lineOf "[k=v]"]

def c7input : Text := [lineOf "[s]", lineOf "k=v"]

/-- Outcome sequence: a quota error, two structurally broken responses,
then a perfect response. -/
def c7oracle : Nat → CallOut := fun n =>
  match n with
  | 0 => .quotaErr
  | 1 => .resp []
  | 2 => .resp []
  | _ => .resp c7input

/-- The same sequence without the leading quota error. -/
def c7oracleNoQuota : Nat → CallOut := fun n =>
  match n with
  | 0 => .resp []
  | 1 => .resp []
  | _ => .resp c7input

def c8files : List (Line × Text) := [(lineOf "a.cfg", [lineOf "x=1"]), (lineOf "b.cfg", [lineOf "y=2"])]

/-- First per-file call succeeds with a well-formed single-file bundle,
the second raises. -/
def c8call : Nat → Option Text := fun n =>
  match n with
  | 0 => some (joinCfgFiles [(lineOf "a.cfg", [lineOf "x=one"])])
  | _ => none

/-! ## Theorems -/

/-! ### Association-list facts -/

theorem alookup_eq_none_of_not_mem {α : Type} (k : Line) (m : List (Line × α))
    (h : k ∉ m.map Prod.fst) : alookup k m = none := by
  induction m with
  | nil => rfl
  | cons hd tl ih =>
    obtain ⟨a, b⟩ := hd
    simp only [List.map_cons, List.mem_cons, not_or] at h
    have ha : ¬a = k := fun e => h.1 (Eq.symm e)
    simp only [alookup, if_neg ha, ih h.2]

theorem mem_fst_of_alookup_eq_some {α : Type} {k : Line} {m : List (Line × α)} {v : α}
    (h : alookup k m = some v) : k ∈ m.map Prod.fst := by
  induction m with
  | nil => exact absurd h (by simp [alookup])
  | cons hd tl ih =>
    obtain ⟨a, b⟩ := hd
    simp only [alookup] at h
    by_cases e : a = k
    · exact List.mem_cons.mpr (Or.inl (Eq.symm e))
    · exact List.mem_cons.mpr (Or.inr (ih (by simpa [if_neg e] using h)))

theorem alookup_append_last {α : Type} (k : Line) (v : α) (pre : List (Line × α))
    (h : k ∉ pre.map Prod.fst) : alookup k (pre ++ [(k, v)]) = some v := by
  induction pre with
  | nil => simp [alookup]
  | cons hd tl ih =>
    obtain ⟨a, b⟩ := hd
    simp only [List.map_cons, List.mem_cons, not_or] at h
    have ha : ¬a = k := fun e => h.1 (Eq.symm e)
    simp only [List.cons_append, alookup, if_neg ha]
    exact ih h.2

theorem aset_append_last {α : Type} (k : Line) (v v' : α) (pre : List (Line × α))
    (h : k ∉ pre.map Prod.fst) : aset k v' (pre ++ [(k, v)]) = pre ++ [(k, v')] := by
  induction pre with
  | nil => simp [aset]
  | cons hd tl ih =>
    obtain ⟨a, b⟩ := hd
    simp only [List.map_cons, List.mem_cons, not_or] at h
    have ha : ¬a = k := fun e => h.1 (Eq.symm e)
    simp only [List.cons_append, aset, if_neg ha]
    exact congrArg _ (ih h.2)

/-- Claim C1 (code bug): merging is not idempotent.  On the source file
`[a] / "; c" / k=v` and an empty existing destination file, the first
merge returns the source lines, but a second merge of the same source
into that result appends a duplicate of the comment line `"; c"`
(re-emitted by `add_obsolete_section_lines`, which replays every
destination line without `=`), so `Merge(src, Merge(src, dst)) ≠
Merge(src, dst)`. -/
theorem merge_second_run_duplicates_comment :
    mergeLocaleFiles c1src (mergeLocaleFiles c1src []) ≠ mergeLocaleFiles c1src [] ∧
    mergeLocaleFiles c1src [] = [lineOf "[a]", lineOf "; c", lineOf "k=v"] ∧
    mergeLocaleFiles c1src (mergeLocaleFiles c1src []) =
      [lineOf "[a]", lineOf "; c", lineOf "k=v", lineOf "; c"] := by decide

/-- Claim C2, counterexample: the filename `"a "` (trailing space) is
pairwise distinct and matches no marker syntax, and the text contains no
marker-like line, yet the round trip returns the mapping under the name
`"a"` — the marker regex strips the name's surrounding whitespace. -/
theorem bundle_roundtrip_fails_on_padded_name :
    splitCfgFiles (joinCfgFiles [(lineOf "a ", [lineOf "x=1"])]) ≠
      [(lineOf "a ", [lineOf "x=1"])] ∧
    splitCfgFiles (joinCfgFiles [(lineOf "a ", [lineOf "x=1"])]) =
      [(lineOf "a", [lineOf "x=1"])] := by decide

/-- Claim C3, counterexample: a returned payload that both lacks the
expected `f.cfg` markers and drops the key `k` is classified as a key
mismatch, not as marker damage — the key check runs first. -/
theorem response_missing_marker_and_key_gives_key_mismatch :
    classifyResponse (joinCfgFiles [(lineOf "f.cfg", [lineOf "[s]", lineOf "k=v"])]) [] =
      .keyMismatch [(lineOf "[s]", lineOf "k")] ∧
    expectedFilesOf (joinCfgFiles [(lineOf "f.cfg", [lineOf "[s]", lineOf "k=v"])]) =
      [lineOf "f.cfg"] ∧
    hasAllMarkers [] [lineOf "f.cfg"] = false := by decide

/-- Claim C4, counterexample: with input `[a] / k=1 / k=2` and output
`[a] / k=1`, every `(section, key)` pair of the input also occurs in the
output, yet `_validate_same_keys` rejects (its length check fires on the
collapsed duplicate), so "not-OK iff some pair is absent" fails. -/
theorem validate_rejects_with_no_missing_pair :
    validateSameKeys [lineOf "[a]", lineOf "k=1", lineOf "k=2"] [lineOf "[a]", lineOf "k=1"] =
      (false, []) ∧
    (∀ p ∈ extractCfgKeys [lineOf "[a]", lineOf "k=1", lineOf "k=2"],
      p ∈ extractCfgKeys [lineOf "[a]", lineOf "k=1"]) := by decide

/-- Claim C5, counterexample: the source has the active key `[k` in
section `[s]`, and the destination holds a tombstoned translation
`";\x0b[k=v]"` for it; reviving strips the whole `[;\s]+` prefix
(including the vertical tab), leaving the bracketed line `"[k=v]"`,
which reads as a section header, so the merged file has no active
`key=value` line for `[k` in `[s]` at all. -/
theorem merge_key_lost_with_exotic_whitespace :
    (lineOf "[s]", lineOf "[k") ∈ activeKeys c5src ∧
    (lineOf "[s]", lineOf "[k") ∉ activeKeys (mergeLocaleFiles c5src c5dst) ∧
    mergeLocaleFiles c5src c5dst = [lineOf "[s]", lineOf "[k=v]"] := by decide

/-- Claim C6, counterexample: the destination-only section `[t]` holds
the key `k`, absent from the source, but the merged file carries the
line `k=v` over verbatim and active — not comment-prefixed. -/
theorem dst_only_section_key_not_commented :
    commentize (lineOf "k=v") ∉
      mergeLocaleFiles [lineOf "[s]", lineOf "a=1"] [lineOf "[t]", lineOf "k=v"] ∧
    lineOf "k=v" ∈
      mergeLocaleFiles [lineOf "[s]", lineOf "a=1"] [lineOf "[t]", lineOf "k=v"] := by decide

/-- Claim C7, counterexample: with `max_retries = 2` and outcomes
(quota error, bad response, bad response, perfect response), the loop
stops exhausted after three calls and never reaches the fourth: the
quota retry consumed one slot of the same budget the structural repairs
use.  Without the quota error the very same structural outcomes succeed
on the third call. -/
theorem quota_retry_consumes_shared_budget :
    (translateCfgBundleLoop c7input 2 c7oracle).result = .exhausted ∧
    (translateCfgBundleLoop c7input 2 c7oracle).calls.length = 3 ∧
    (translateCfgBundleLoop c7input 2 c7oracle).sleeps = 1 ∧
    (translateCfgBundleLoop c7input 2 c7oracleNoQuota).result = .success c7input := by decide

/-- Claim C8, counterexample: two files whose joint bundle exceeds the
single-call limit are translated one by one; the first file is written,
then the second call raises, so the job terminates failed with `a.cfg`
already overwritten — a partially translated subset on disk. -/
theorem fallback_failure_leaves_partial_write :
    (translateModLocalesInplace c8files 0 c8call c8files).err = some .callFailed ∧
    (translateModLocalesInplace c8files 0 c8call c8files).disk ≠ c8files ∧
    alookup (lineOf "a.cfg") (translateModLocalesInplace c8files 0 c8call c8files).disk =
      some [lineOf "x=one"] := by decide

/-- Claim C9, counterexample: the line `x` precedes the first section
header, `parse_ru_lines` stores it nowhere, and concatenating the
section line lists loses it. -/
theorem parse_drops_leading_line :
    sectionsConcat [lineOf "x", lineOf "[a]", lineOf "k=v"] ≠
      [lineOf "x", lineOf "[a]", lineOf "k=v"] ∧
    sectionsConcat [lineOf "x", lineOf "[a]", lineOf "k=v"] =
      [lineOf "[a]", lineOf "k=v"] := by decide

/-- Claim C10: when the destination directory holds no `.cfg` files,
`translate_mod_locales_inplace` returns normally before bundling:
no external call is made, the disk is untouched and no completion-log
entry is appended. -/
theorem empty_job_noop (maxChars : Nat) (callResult : Nat → Option Text)
    (disk0 : List (Line × Text)) :
    translateModLocalesInplace [] maxChars callResult disk0 =
      ⟨none, disk0, 0, false⟩ := rfl

/-- Claim C3 (amended): the exchange validation checks key preservation
first.  If the key check fails, the response is classified as
`KeyMismatch` (with its diagnostic list) whether or not markers are also
damaged; `MarkerDamage` is reported exactly when the key check passes,
the expected list is non-empty and some marker line is absent. -/
theorem classify_checks_keys_first (input out : Text) :
    ((validateSameKeys input out).1 = false →
      classifyResponse input out = .keyMismatch (validateSameKeys input out).2) ∧
    (classifyResponse input out = .markerDamage ↔
      (validateSameKeys input out).1 = true ∧ expectedFilesOf input ≠ [] ∧
        hasAllMarkers out (expectedFilesOf input) = false) := by
  constructor
  · intro h
    simp [classifyResponse, h]
  · constructor
    · intro h
      simp only [classifyResponse] at h
      by_cases hv : (validateSameKeys input out).1 = false
      · simp [hv] at h
      · simp only [hv, if_false] at h
        refine ⟨by simpa using hv, ?_⟩
        by_cases hm : expectedFilesOf input ≠ [] ∧
            hasAllMarkers out (expectedFilesOf input) = false
        · exact hm
        · simp [hm] at h
    · rintro ⟨hv, hne, hm⟩
      simp only [classifyResponse]
      rw [if_neg (by simp [hv]), if_pos ⟨hne, hm⟩]

theorem classify_checks_keys_first_witness :
    ((validateSameKeys [lineOf "k=v"] []).1 = false ∧
      classifyResponse [lineOf "k=v"] [] =
        .keyMismatch (validateSameKeys [lineOf "k=v"] []).2) ∧
    ((validateSameKeys [lineOf "; ===FILE: a ===", lineOf "k=v"] [lineOf "k=v"]).1 = true ∧
      classifyResponse [lineOf "; ===FILE: a ===", lineOf "k=v"] [lineOf "k=v"] =
        .markerDamage) :=
  ⟨⟨by decide, (classify_checks_keys_first [lineOf "k=v"] []).1 (by decide)⟩,
    ⟨by decide,
      (classify_checks_keys_first [lineOf "; ===FILE: a ===", lineOf "k=v"]
        [lineOf "k=v"]).2.mpr ⟨by decide, by decide, by decide⟩⟩⟩

/-- Claim C4 (amended): `_validate_same_keys` is not-OK exactly when
some `(section, key)` pair of the input is absent from the output or the
output's extracted pair list is strictly shorter than the input's (the
length check also fires when duplicated input pairs are collapsed, even
though no pair is absent); reordering and extra keys alone never cause
rejection, and the message's missing-pair list carries at most 50
entries. -/
theorem validate_not_ok_iff (input output : Text) :
    ((validateSameKeys input output).1 = false ↔
      ((extractCfgKeys output).length < (extractCfgKeys input).length ∨
        ∃ p ∈ extractCfgKeys input, p ∉ extractCfgKeys output)) ∧
    (validateSameKeys input output).2.length ≤ 50 := by
  unfold validateSameKeys
  by_cases h1 : (extractCfgKeys output).length < (extractCfgKeys input).length
  · simp only [if_pos h1]
    exact ⟨by simp [h1], List.length_take_le 50 _⟩
  · simp only [if_neg h1]
    by_cases h2 : (extractCfgKeys input).filter
        (fun k => decide (k ∉ extractCfgKeys output)) ≠ []
    · simp only [if_pos h2]
      refine ⟨⟨fun _ => ?_, fun _ => by trivial⟩, List.length_take_le 50 _⟩
      rcases List.exists_mem_of_ne_nil _ h2 with ⟨p, hp⟩
      rcases List.mem_filter.mp hp with ⟨hpin, hpd⟩
      exact Or.inr ⟨p, hpin, by simpa using hpd⟩
    · simp only [if_neg h2]
      refine ⟨⟨fun habs => by simp at habs, fun hcase => ?_⟩, by simp⟩
      rcases hcase with hlen | ⟨p, hpin, hpnot⟩
      · exact absurd hlen h1
      · have : p ∈ (extractCfgKeys input).filter
            (fun k => decide (k ∉ extractCfgKeys output)) :=
          List.mem_filter.mpr ⟨hpin, by simpa using hpnot⟩
        rw [not_not] at h2
        rw [h2] at this
        simp at this

theorem loopGo_calls_length (input : Text) (m : Nat) (oracle : Nat → CallOut) :
    ∀ fuel attempt sys, (loopGo input m oracle fuel attempt sys).calls.length ≤ fuel := by
  intro fuel
  induction fuel with
  | zero => intro a s; simp [loopGo]
  | succ f ih =>
    intro a s
    cases h : oracle a with
    | resp out =>
      cases hc : classifyResponse input out with
      | accepted o => simp [loopGo, h, hc]
      | keyMismatch mm =>
        simp only [loopGo, h, hc]
        simpa using Nat.succ_le_succ (ih (a + 1) _)
      | markerDamage =>
        simp only [loopGo, h, hc]
        simpa using Nat.succ_le_succ (ih (a + 1) _)
    | quotaErr =>
      by_cases hqa : a < m
      · simp only [loopGo, h, if_pos hqa]
        simpa using Nat.succ_le_succ (ih (a + 1) s)
      · simp [loopGo, h, hqa]
    | otherErr => simp [loopGo, h]

/-- Claim C7 (amended): in the retry loop around the external call, a
quota failure below the last attempt sleeps the fixed cooldown once and
retries with the same payload and the same instructions, but that retry
consumes the same attempt budget the structural repairs use — the total
number of external calls never exceeds `max_retries + 1`, whatever mix
of quota and structural failures occurs — and a quota failure on the
final attempt re-raises the exception. -/
theorem quota_retry_shares_attempt_budget (input : Text) (m : Nat)
    (oracle : Nat → CallOut) (fuel a : Nat) (sys : SysInstr)
    (hq : oracle a = .quotaErr) :
    (translateCfgBundleLoop input m oracle).calls.length ≤ m + 1 ∧
    (a < m →
      loopGo input m oracle (fuel + 1) a sys =
        ⟨(loopGo input m oracle fuel (a + 1) sys).result,
          (a, sys) :: (loopGo input m oracle fuel (a + 1) sys).calls,
          (loopGo input m oracle fuel (a + 1) sys).sleeps + 1⟩) ∧
    (¬ a < m → loopGo input m oracle (fuel + 1) a sys = ⟨.raisedQuota, [(a, sys)], 0⟩) := by
  refine ⟨loopGo_calls_length input m oracle (m + 1) 0 .base, ?_, ?_⟩
  · intro ha
    simp [loopGo, hq, ha]
  · intro ha
    simp [loopGo, hq, ha]

theorem quota_retry_shares_attempt_budget_witness :
    ((fun _ : Nat => CallOut.quotaErr) 0 = CallOut.quotaErr) ∧
    (translateCfgBundleLoop [] 2 (fun _ => CallOut.quotaErr)).calls.length ≤ 3 ∧
    (0 < 2 →
      loopGo [] 2 (fun _ => CallOut.quotaErr) 3 0 .base =
        ⟨(loopGo [] 2 (fun _ => CallOut.quotaErr) 2 1 .base).result,
          (0, .base) :: (loopGo [] 2 (fun _ => CallOut.quotaErr) 2 1 .base).calls,
          (loopGo [] 2 (fun _ => CallOut.quotaErr) 2 1 .base).sleeps + 1⟩) := by
  have h := quota_retry_shares_attempt_budget [] 2 (fun _ => CallOut.quotaErr) 2 0 .base rfl
  exact ⟨rfl, h.1, h.2.1⟩

/-- Claim C8 (amended): when the joint bundle fits in a single external
call, a job that terminates with any error leaves the destination
directory exactly as it was and appends no log entry (files are written
only on the fully validated success path); in the oversized per-file
fallback path this fails — files translated before the failing call have
already been overwritten. -/
theorem single_call_failure_leaves_disk (files : List (Line × Text)) (maxChars : Nat)
    (callResult : Nat → Option Text) (disk0 : List (Line × Text)) (e : TErr)
    (hsize : bundleStrLen (joinCfgFiles files) ≤ maxChars)
    (herr : (translateModLocalesInplace files maxChars callResult disk0).err = some e) :
    (translateModLocalesInplace files maxChars callResult disk0).disk = disk0 ∧
    (translateModLocalesInplace files maxChars callResult disk0).logged = false := by
  by_cases hf : files = []
  · rw [hf] at herr
    simp [translateModLocalesInplace] at herr
  · cases hc : callResult 0 with
    | none => simp [translateModLocalesInplace, hf, hsize, hc]
    | some tb =>
      by_cases hm : hasAllMarkers tb (files.map Prod.fst) = false
      · simp [translateModLocalesInplace, hf, hsize, hc, hm]
      · by_cases hs : splitCfgFiles tb = [] ∨ sameNames (splitCfgFiles tb) files = false
        · simp [translateModLocalesInplace, hf, hsize, hc, hm, hs]
        · exfalso
          simp [translateModLocalesInplace, hf, hsize, hc, hm, hs] at herr

theorem single_call_failure_leaves_disk_witness :
    bundleStrLen (joinCfgFiles [(lineOf "a.cfg", [lineOf "x=1"])]) ≤ 1000 ∧
    (translateModLocalesInplace [(lineOf "a.cfg", [lineOf "x=1"])] 1000
        (fun _ => none) [(lineOf "a.cfg", [lineOf "x=1"])]).err = some .callFailed ∧
    (translateModLocalesInplace [(lineOf "a.cfg", [lineOf "x=1"])] 1000
        (fun _ => none) [(lineOf "a.cfg", [lineOf "x=1"])]).disk =
      [(lineOf "a.cfg", [lineOf "x=1"])] ∧
    (translateModLocalesInplace [(lineOf "a.cfg", [lineOf "x=1"])] 1000
        (fun _ => none) [(lineOf "a.cfg", [lineOf "x=1"])]).logged = false := by
  have h := single_call_failure_leaves_disk [(lineOf "a.cfg", [lineOf "x=1"])] 1000
    (fun _ => none) [(lineOf "a.cfg", [lineOf "x=1"])] .callFailed (by decide) (by decide)
  exact ⟨by decide, by decide, h.1, h.2⟩

theorem not_mem_of_nodup_append_cons {x : Line} {A B : List Line}
    (h : (A ++ x :: B).Nodup) : x ∉ A := by
  intro hx
  exact (List.nodup_append.mp h).2.2 hx (List.mem_cons_self x B)

theorem parseRuStep_header (st : RuParse) (line : Line)
    (hH : isHeaderLine line = true)
    (hfresh : stripLead line ∉ st.ruSections.map Prod.fst) :
    (parseRuStep st line).ruSections = st.ruSections ++ [(stripLead line, [line])] ∧
    (parseRuStep st line).curr = some (stripLead line) := by
  have hnone : alookup (stripLead line) st.ruSections = none :=
    alookup_eq_none_of_not_mem _ _ hfresh
  have hsd : setdefault (stripLead line) ([] : List Line) st.ruSections =
      st.ruSections ++ [(stripLead line, [])] := by
    simp [setdefault, hnone]
  have hlook : alookup (stripLead line) (st.ruSections ++ [(stripLead line, [])]) =
      some [] := alookup_append_last _ _ _ hfresh
  simp only [parseRuStep, hH, if_true, hsd, hlook]
  refine ⟨?_, by trivial⟩
  simpa using aset_append_last (stripLead line) [] [line] st.ruSections hfresh

theorem parseRuStep_nonheader (st : RuParse) (line : Line) (s : Line)
    (hH : isHeaderLine line = false) (hc : st.curr = some s) :
    (parseRuStep st line).ruSections =
      aset s (((alookup s st.ruSections).getD []) ++ [line]) st.ruSections ∧
    (parseRuStep st line).curr = some s := by
  simp only [parseRuStep, hH, Bool.false_eq_true, if_false, hc]
  by_cases h1 : '=' ∈ line
  · by_cases h2 : '=' ∈ stripLead line
    · simp [h1, h2, hc]
    · simp [h1, h2]
  · simp [h1]

theorem parse_partition_go (rest : Text) :
    ∀ st : RuParse,
      ((st.ruSections.map Prod.fst ++ (rest.filter isHeaderLine).map stripLead).Nodup) →
      (match st.curr with
        | some s => ∃ pre v, st.ruSections = pre ++ [(s, v)]
        | none => st.ruSections = [] ∧
            (∀ l, rest.head? = some l → isHeaderLine l = true)) →
      (((rest.foldl parseRuStep st).ruSections.map Prod.snd).flatten =
        (st.ruSections.map Prod.snd).flatten ++ rest) := by
  induction rest with
  | nil => intro st _ _; simp
  | cons line rest' ih =>
    intro st hn hcurr
    by_cases hH : isHeaderLine line = true
    · -- a (possibly commented) section header opens a fresh section
      have hfilter : (line :: rest').filter isHeaderLine = line :: rest'.filter isHeaderLine := by
        simp [List.filter_cons, hH]
      rw [hfilter] at hn
      have hn' : (st.ruSections.map Prod.fst ++
          stripLead line :: (rest'.filter isHeaderLine).map stripLead).Nodup := by
        simpa using hn
      have hfresh : stripLead line ∉ st.ruSections.map Prod.fst :=
        not_mem_of_nodup_append_cons hn'
      obtain ⟨hsec, hcur⟩ := parseRuStep_header st line hH hfresh
      have hn2 : (((parseRuStep st line).ruSections.map Prod.fst) ++
          (rest'.filter isHeaderLine).map stripLead).Nodup := by
        rw [hsec]
        simpa [List.append_assoc] using hn'
      have hcurr2 : match (parseRuStep st line).curr with
          | some s => ∃ pre v, (parseRuStep st line).ruSections = pre ++ [(s, v)]
          | none => (parseRuStep st line).ruSections = [] ∧
              (∀ l, rest'.head? = some l → isHeaderLine l = true) := by
        rw [hcur, hsec]
        exact ⟨st.ruSections, [line], rfl⟩
      have := ih (parseRuStep st line) hn2 hcurr2
      rw [List.foldl_cons, this, hsec]
      simp
    · -- a body line is appended to the open last section
      rcases hco : st.curr with _ | s
      · rw [hco] at hcurr
        exact absurd (hcurr.2 line rfl) (by simpa using hH)
      · rw [hco] at hcurr
        obtain ⟨pre, v, hst⟩ := hcurr
        have hHf : isHeaderLine line = false := by simpa using hH
        have hnames : st.ruSections.map Prod.fst = pre.map Prod.fst ++ [s] := by
          rw [hst]; simp
        have hsnotin : s ∉ pre.map Prod.fst := by
          apply not_mem_of_nodup_append_cons (B := (rest'.filter isHeaderLine).map stripLead)
          have : (st.ruSections.map Prod.fst ++
              ((line :: rest').filter isHeaderLine).map stripLead).Nodup := hn
          rw [hnames] at this
          simpa [List.filter_cons, hHf, List.append_assoc] using this
        obtain ⟨hsec, hcur⟩ := parseRuStep_nonheader st line s hHf hco
        have hlook : alookup s st.ruSections = some v := by
          rw [hst]; exact alookup_append_last _ _ _ hsnotin
        have hsec' : (parseRuStep st line).ruSections = pre ++ [(s, v ++ [line])] := by
          rw [hsec, hlook, hst]
          simpa using aset_append_last s v (v ++ [line]) pre hsnotin
        have hn2 : (((parseRuStep st line).ruSections.map Prod.fst) ++
            (rest'.filter isHeaderLine).map stripLead).Nodup := by
          rw [hsec']
          have : (parseRuStep st line).ruSections.map Prod.fst = st.ruSections.map Prod.fst := by
            rw [hsec', hnames]; simp
          rw [hsec'] at this
          rw [this]
          simpa [List.filter_cons, hHf] using hn
        have hcurr2 : match (parseRuStep st line).curr with
            | some s' => ∃ pre' v', (parseRuStep st line).ruSections = pre' ++ [(s', v')]
            | none => (parseRuStep st line).ruSections = [] ∧
                (∀ l, rest'.head? = some l → isHeaderLine l = true) := by
          rw [hcur]
          exact ⟨pre, v ++ [line], hsec'⟩
        have := ih (parseRuStep st line) hn2 hcurr2
        rw [List.foldl_cons, this, hsec', hst]
        simp

/-- Claim C9 (amended): for a destination file in which no line precedes
the first section header and no two header lines share the same
normalized (comment-stripped) name, concatenating the line lists stored
by `parse_ru_lines` for all sections in order reproduces the file's
lines exactly; a line before the first header is stored nowhere and
lost, and a repeated normalized header folds its lines into the earlier
section, so both restrictions are necessary. -/
theorem parse_partition_lossless (lines : Text)
    (hfirst : ∀ l, lines.head? = some l → isHeaderLine l = true)
    (hnodup : ((lines.filter isHeaderLine).map stripLead).Nodup) :
    sectionsConcat lines = lines := by
  have := parse_partition_go lines ⟨[], [], none⟩ (by simpa using hnodup)
    (by exact ⟨rfl, hfirst⟩)
  simpa [sectionsConcat, parseRuLines] using this

theorem parse_partition_lossless_witness :
    (∀ l, ([lineOf "[a]", lineOf "k=v", lineOf "; [b]", lineOf "x=y"] : Text).head? = some l →
      isHeaderLine l = true) ∧
    sectionsConcat [lineOf "[a]", lineOf "k=v", lineOf "; [b]", lineOf "x=y"] =
      [lineOf "[a]", lineOf "k=v", lineOf "; [b]", lineOf "x=y"] :=
  ⟨by decide, parse_partition_lossless _ (by decide) (by decide)⟩

/-! ### Bundle protocol: marker recognition facts -/

theorem tailMatch_inner_false (m : Line) (hne : m ≠ [])
    (hlast : ∀ c, m.getLast? = some c → pyIsSpace c = false) :
    tailMatch (m ++ [' ', '=', '=', '=']) = false := by
  rw [← Bool.not_eq_true]
  intro htm
  unfold tailMatch at htm
  rw [Bool.and_eq_true] at htm
  obtain ⟨hpre, hall⟩ := htm
  obtain ⟨R, hR⟩ := List.isPrefixOf_iff_prefix.mp hpre
  have hdrop3 : ((m ++ [' ', '=', '=', '=']).dropWhile pyIsSpace).drop 3 = R := by
    rw [← hR]; rfl
  rw [hdrop3] at hall
  have hlastT : (m ++ [' ', '=', '=', '=']).getLast? = some '=' := by
    rw [List.getLast?_append_of_ne_nil _ (by simp)]; rfl
  have hsplit0 := List.takeWhile_append_dropWhile pyIsSpace (m ++ [' ', '=', '=', '='])
  rw [← hR] at hsplit0
  by_cases hRnil : R = []
  · rw [hRnil, List.append_nil] at hsplit0
    have hW : (m ++ [' ', '=', '=', '=']).takeWhile pyIsSpace = m ++ [' '] := by
      apply List.append_left_injective ['=', '=', '=']
      show _ ++ _ = _ ++ _
      rw [hsplit0]; simp
    obtain ⟨c, hc⟩ : ∃ c, m.getLast? = some c :=
      Option.isSome_iff_exists.mp (List.getLast?_isSome.mpr hne)
    have hcm : c ∈ m := List.mem_of_mem_getLast? hc
    have hws : pyIsSpace c = true := by
      apply List.mem_takeWhile_imp (l := m ++ [' ', '=', '=', '='])
      rw [hW]
      exact List.mem_append_left _ hcm
    rw [hlast c hc] at hws
    exact Bool.false_ne_true hws
  · rw [← hsplit0] at hlastT
    rw [List.getLast?_append_of_ne_nil _ (by simp [hRnil]),
        List.getLast?_append_of_ne_nil _ hRnil] at hlastT
    have hws : pyIsSpace '=' = true := by
      have hmem : '=' ∈ R := List.mem_of_mem_getLast? hlastT
      rw [List.all_eq_true] at hall
      exact hall _ hmem
    exact Bool.false_ne_true hws

theorem getLast?_cons_ne_nil (c : Char) (l : List Char) (h : l ≠ []) :
    (c :: l).getLast? = l.getLast? := by
  cases l with
  | nil => exact absurd rfl h
  | cons d t => simp [List.getLast?_cons_cons]

theorem groupGo_clean (n : Line) :
    n ≠ [] → (∀ c, n.getLast? = some c → pyIsSpace c = false) →
    ∀ acc, groupGo acc (n ++ [' ', '=', '=', '=']) = some (acc ++ n) := by
  induction n with
  | nil => intro h; exact absurd rfl h
  | cons c n' ih =>
    intro _ hlast acc
    show groupGo acc (c :: (n' ++ [' ', '=', '=', '='])) = some (acc ++ (c :: n'))
    by_cases hn' : n' = []
    · subst hn'
      unfold groupGo
      rw [if_pos (by decide)]
    · have hlast' : ∀ d, n'.getLast? = some d → pyIsSpace d = false := by
        intro d hd
        exact hlast d (by rw [getLast?_cons_ne_nil c n' hn']; exact hd)
      unfold groupGo
      rw [if_neg (by rw [tailMatch_inner_false n' hn' hlast']; exact Bool.false_ne_true)]
      rw [ih hn' hlast' (acc ++ [c])]
      simp

theorem matchFileMarker_cons_reduce (x : Line) :
    matchFileMarker (';' :: ' ' :: '=' :: '=' :: '=' :: 'F' :: 'I' :: 'L' :: 'E' :: ':' :: ' ' :: x) =
      searchFrom (' ' :: x) ((' ' :: x).takeWhile pyIsSpace).length := by
  unfold matchFileMarker
  simp [List.dropWhile, pyIsSpace, List.isPrefixOf]

theorem matchFileMarker_beginMarker (n : Line) (h1 : n ≠ [])
    (h2 : ∀ c, n.head? = some c → pyIsSpace c = false)
    (h3 : ∀ c, n.getLast? = some c → pyIsSpace c = false) :
    matchFileMarker (beginMarker n) = some n := by
  have hb : beginMarker n =
      ';' :: ' ' :: '=' :: '=' :: '=' :: 'F' :: 'I' :: 'L' :: 'E' :: ':' :: ' ' ::
        (n ++ [' ', '=', '=', '=']) := by
    simp [beginMarker]
  have hgroup : firstGroup (n ++ [' ', '=', '=', '=']) = some n := by
    unfold firstGroup
    simpa using groupGo_clean n h1 h3 []
  rw [hb, matchFileMarker_cons_reduce]
  have htake : (n ++ [' ', '=', '=', '=']).takeWhile pyIsSpace = [] := by
    cases n with
    | nil => exact absurd rfl h1
    | cons c n' =>
      have hcs : pyIsSpace c = false := h2 c rfl
      simp [List.takeWhile_cons, hcs]
  have hlen : ((' ' :: (n ++ [' ', '=', '=', '='])).takeWhile pyIsSpace).length = 1 := by
    simp [List.takeWhile_cons, htake, pyIsSpace]
  rw [hlen]
  unfold searchFrom
  simp [hgroup]

theorem pyStrip_of_clean_ends (l : Line)
    (h1 : ∀ c, l.head? = some c → pyIsSpace c = false)
    (h3 : ∀ c, l.getLast? = some c → pyIsSpace c = false) : pyStrip l = l := by
  unfold pyStrip
  have hd : l.dropWhile pyIsSpace = l := by
    cases l with
    | nil => rfl
    | cons c t => simp [List.dropWhile_cons, h1 c rfl]
  rw [hd]
  have hr : l.reverse.dropWhile pyIsSpace = l.reverse := by
    cases hrv : l.reverse with
    | nil => rfl
    | cons c t =>
      have : l.getLast? = some c := by
        rw [← List.head?_reverse, hrv]; rfl
      simp [List.dropWhile_cons, h3 c this]
  rw [hr, List.reverse_reverse]

theorem endMarker_eq_cons (n : Line) :
    endMarker n = ';' :: ' ' :: '=' :: '=' :: '=' :: 'E' :: 'N' :: 'D' :: ' ' :: 'F' ::
      'I' :: 'L' :: 'E' :: ':' :: ' ' :: (n ++ [' ', '=', '=', '=']) := by
  simp [endMarker]

theorem matchFileMarker_endMarker (n : Line) : matchFileMarker (endMarker n) = none := by
  rw [endMarker_eq_cons]
  unfold matchFileMarker
  simp [List.dropWhile, pyIsSpace, List.isPrefixOf]

theorem isEndMark_endMarker (n : Line) : isEndMark (endMarker n) = true := by
  have hstrip : pyStrip (endMarker n) = endMarker n := by
    apply pyStrip_of_clean_ends
    · intro c hc
      rw [endMarker_eq_cons] at hc
      simp at hc
      subst hc
      decide
    · intro c hc
      rw [endMarker_eq_cons] at hc
      have hlast : (';' :: ' ' :: '=' :: '=' :: '=' :: 'E' :: 'N' :: 'D' :: ' ' :: 'F' ::
          'I' :: 'L' :: 'E' :: ':' :: ' ' :: (n ++ [' ', '=', '=', '='])).getLast? = some '=' := by
        rw [show (';' :: ' ' :: '=' :: '=' :: '=' :: 'E' :: 'N' :: 'D' :: ' ' :: 'F' ::
          'I' :: 'L' :: 'E' :: ':' :: ' ' :: (n ++ [' ', '=', '=', '='])) =
          ((';' :: ' ' :: '=' :: '=' :: '=' :: 'E' :: 'N' :: 'D' :: ' ' :: 'F' ::
          'I' :: 'L' :: 'E' :: ':' :: ' ' :: n) ++ [' ', '=', '=', '=']) by simp]
        rw [List.getLast?_append_of_ne_nil _ (by simp)]
        rfl
      rw [hlast] at hc
      injection hc with hc
      subst hc
      decide
  unfold isEndMark
  rw [hstrip]
  apply List.isPrefixOf_iff_prefix.mpr
  refine ⟨' ' :: (n ++ [' ', '=', '=', '=']), ?_⟩
  rw [endMarker_eq_cons]
  simp

theorem matchFileMarker_nil : matchFileMarker [] = none := rfl

theorem isEndMark_nil : isEndMark [] = false := by decide



theorem aset_not_mem {α : Type} (k : Line) (v : α) (m : List (Line × α))
    (h : k ∉ m.map Prod.fst) : aset k v m = m ++ [(k, v)] := by
  induction m with
  | nil => rfl
  | cons hd tl ih =>
    obtain ⟨a, b⟩ := hd
    simp only [List.map_cons, List.mem_cons, not_or] at h
    have ha : ¬a = k := fun e => h.1 (Eq.symm e)
    simp only [List.cons_append, aset, if_neg ha]
    exact congrArg _ (ih h.2)

theorem splitCfgStep_benign_some (out : List (Line × Text)) (c : Line) (buf : Text)
    (l : Line) (hb : benignLine l) :
    splitCfgStep ⟨out, some c, buf⟩ l = ⟨out, some c, buf ++ [l]⟩ := by
  unfold splitCfgStep
  rw [hb.1]
  simp [hb.2]

theorem splitCfgStep_blank_none (out : List (Line × Text)) (buf : Text) :
    splitCfgStep ⟨out, none, buf⟩ [] = ⟨out, none, buf⟩ := rfl

theorem foldl_benign (lines : Text) :
    ∀ (out : List (Line × Text)) (c : Line) (buf : Text),
      (∀ l ∈ lines, benignLine l) →
      List.foldl splitCfgStep ⟨out, some c, buf⟩ lines = ⟨out, some c, buf ++ lines⟩ := by
  induction lines with
  | nil => intro out c buf _; simp
  | cons l ls ih =>
    intro out c buf hb
    rw [List.foldl_cons, splitCfgStep_benign_some out c buf l (hb l (by simp))]
    rw [ih out c (buf ++ [l]) (fun x hx => hb x (by simp [hx]))]
    simp

theorem benign_chunkOf (t : Text) (hb : ∀ l ∈ t, benignLine l) :
    ∀ l ∈ chunkOf t, benignLine l := by
  intro l hl
  unfold chunkOf at hl
  by_cases h : rstripNL t = []
  · rw [h] at hl
    simp at hl
    subst hl
    exact ⟨matchFileMarker_nil, isEndMark_nil⟩
  · rw [if_neg h] at hl
    apply hb
    unfold rstripNL dropTrailingBlanks at hl
    have hsub : (t.reverse.dropWhile (fun x => decide (x = []))).reverse.Sublist t := by
      have h1 : (t.reverse.dropWhile (fun x => decide (x = []))).Sublist t.reverse :=
        List.dropWhile_sublist _
      have := h1.reverse
      simpa using this
    exact hsub.mem hl

theorem foldl_block (n : Line) (t : Text) (out0 : List (Line × Text))
    (hfresh : n ∉ out0.map Prod.fst) (hc : cleanName n)
    (hb : ∀ l ∈ t, benignLine l) :
    List.foldl splitCfgStep ⟨out0, none, []⟩ ([beginMarker n] ++ chunkOf t ++ [endMarker n]) =
      ⟨out0 ++ [(n, chunkOf t)], none, []⟩ := by
  obtain ⟨h1, h2, h3⟩ := hc
  have hbm : splitCfgStep ⟨out0, none, []⟩ (beginMarker n) = ⟨out0, some n, []⟩ := by
    unfold splitCfgStep
    rw [matchFileMarker_beginMarker n h1 h2 h3]
  have hem : splitCfgStep ⟨out0, some n, chunkOf t⟩ (endMarker n) =
      ⟨out0 ++ [(n, chunkOf t)], none, []⟩ := by
    unfold splitCfgStep
    rw [matchFileMarker_endMarker n]
    simp only [isEndMark_endMarker n, if_pos]
    rw [aset_not_mem n (chunkOf t) out0 hfresh]
  rw [List.foldl_append, List.foldl_append]
  rw [show List.foldl splitCfgStep ⟨out0, none, []⟩ [beginMarker n] =
    splitCfgStep ⟨out0, none, []⟩ (beginMarker n) from rfl, hbm]
  rw [foldl_benign (chunkOf t) out0 n [] (benign_chunkOf t hb)]
  simp only [List.nil_append]
  rw [show List.foldl splitCfgStep ⟨out0, some n, chunkOf t⟩ [endMarker n] =
    splitCfgStep ⟨out0, some n, chunkOf t⟩ (endMarker n) from rfl, hem]



theorem foldl_blocks (m : List (Line × Text)) :
    ∀ out0 : List (Line × Text),
      ((out0.map Prod.fst ++ m.map Prod.fst).Nodup) →
      (∀ p ∈ m, cleanName p.1) → (∀ p ∈ m, ∀ l ∈ p.2, benignLine l) →
      List.foldl splitCfgStep ⟨out0, none, []⟩ ((m.map blockOf).flatten) =
        ⟨out0 ++ m.map (fun p => (p.1, chunkOf p.2)), none, []⟩ := by
  induction m with
  | nil => intro out0 _ _ _; simp
  | cons p m' ih =>
    obtain ⟨n, t⟩ := p
    intro out0 hn hc hb
    have hflat : ((((n, t) :: m').map blockOf).flatten) =
        ([beginMarker n] ++ chunkOf t ++ [endMarker n]) ++ ([[]] ++ (m'.map blockOf).flatten) := by
      simp [blockOf]
    rw [hflat, List.foldl_append]
    have hfresh : n ∉ out0.map Prod.fst := by
      apply not_mem_of_nodup_append_cons (B := m'.map Prod.fst)
      simpa using hn
    rw [foldl_block n t out0 hfresh (hc (n, t) (by simp)) (hb (n, t) (by simp))]
    rw [show ([[]] ++ (m'.map blockOf).flatten) = [] :: (m'.map blockOf).flatten from rfl]
    rw [List.foldl_cons, splitCfgStep_blank_none]
    have hn' : (((out0 ++ [(n, chunkOf t)]).map Prod.fst) ++ m'.map Prod.fst).Nodup := by
      simpa [List.append_assoc] using hn
    rw [ih (out0 ++ [(n, chunkOf t)]) hn' (fun q hq => hc q (by simp [hq]))
      (fun q hq => hb q (by simp [hq]))]
    simp

theorem rstripNL_concat_blank (Z : Text) : rstripNL (Z ++ [[]]) = rstripNL Z := by
  unfold rstripNL dropTrailingBlanks
  simp [List.dropWhile]

theorem rstripNL_eq_self_of_last (Z : Text) (e : Line) (h : Z.getLast? = some e)
    (he : e ≠ []) : rstripNL Z = Z := by
  unfold rstripNL dropTrailingBlanks
  cases hrv : Z.reverse with
  | nil => simp_all
  | cons x xs =>
    have hx : Z.getLast? = some x := by rw [← List.head?_reverse, hrv]; rfl
    rw [hx] at h
    injection h with h
    subst h
    rw [List.dropWhile_cons, if_neg (by simpa using he)]
    rw [← hrv, List.reverse_reverse]

theorem dropWhile_dropWhile {α : Type} (p : α → Bool) (l : List α) :
    (l.dropWhile p).dropWhile p = l.dropWhile p := by
  induction l with
  | nil => rfl
  | cons c t ih =>
    by_cases h : p c = true
    · simp [List.dropWhile_cons, h, ih]
    · simp [List.dropWhile_cons, h]

theorem rstripNL_idem (t : Text) : rstripNL (rstripNL t) = rstripNL t := by
  unfold rstripNL dropTrailingBlanks
  rw [List.reverse_reverse, dropWhile_dropWhile]

theorem rstripNL_chunkOf (t : Text) : rstripNL (chunkOf t) = rstripNL t := by
  unfold chunkOf
  by_cases h : rstripNL t = []
  · rw [if_pos h, h]
    decide
  · rw [if_neg h, rstripNL_idem]

theorem joinFold (m : List (Line × Text)) :
    ∀ init : Text,
      m.foldl (fun parts nt =>
        parts ++ [beginMarker nt.1] ++ chunkOf nt.2 ++ [endMarker nt.1] ++ [[]]) init =
      init ++ (m.map blockOf).flatten := by
  induction m with
  | nil => intro init; simp
  | cons p m' ih =>
    intro init
    rw [List.foldl_cons, ih]
    simp [blockOf]



theorem joinCfgFiles_concat (m' : List (Line × Text)) (n : Line) (t : Text) :
    joinCfgFiles (m' ++ [(n, t)]) =
      (m'.map blockOf).flatten ++ ([beginMarker n] ++ chunkOf t ++ [endMarker n]) := by
  unfold joinCfgFiles
  rw [joinFold]
  simp only [List.nil_append, List.map_append, List.flatten_append]
  have hshape : ((List.map blockOf [(n, t)]).flatten) =
      ([beginMarker n] ++ chunkOf t ++ [endMarker n]) ++ [[]] := by
    simp [blockOf]
  rw [hshape]
  rw [show (m'.map blockOf).flatten ++ (([beginMarker n] ++ chunkOf t ++ [endMarker n]) ++ [[]]) =
    ((m'.map blockOf).flatten ++ ([beginMarker n] ++ chunkOf t ++ [endMarker n])) ++ [[]] by
      simp [List.append_assoc]]
  rw [rstripNL_concat_blank]
  apply rstripNL_eq_self_of_last _ (endMarker n)
  · rw [show (m'.map blockOf).flatten ++ ([beginMarker n] ++ chunkOf t ++ [endMarker n]) =
      ((m'.map blockOf).flatten ++ [beginMarker n] ++ chunkOf t) ++ [endMarker n] by
        simp [List.append_assoc]]
    rw [List.getLast?_append_of_ne_nil _ (by simp)]
    rfl
  · rw [endMarker_eq_cons]
    simp

theorem pySplitlinesGo_nil (skipNL : Bool) (cur : Line) :
    pySplitlinesGo skipNL cur [] = if cur = [] then [] else [cur] := rfl

theorem pySplitlinesGo_newline (cur rest : Line) :
    pySplitlinesGo false cur ('\n' :: rest) = cur :: pySplitlinesGo false [] rest := by
  simp only [pySplitlinesGo]
  rw [if_neg (by simp), if_pos (by decide : pyLineBreak '\n' = true)]
  rw [show decide ('\n' = '\r') = false from by decide]

theorem pySplitlinesGo_plain (cur rest : Line) (skipNL : Bool) (c : Char)
    (hc : pyLineBreak c = false) :
    pySplitlinesGo skipNL cur (c :: rest) = pySplitlinesGo false (cur ++ [c]) rest := by
  have hcn : c ≠ '\n' := by
    intro e
    rw [e] at hc
    exact absurd hc (by decide)
  simp only [pySplitlinesGo]
  rw [if_neg (by simp [hcn]), if_neg (by simp [hc])]

theorem pySplitlinesGo_append (l : Line) (hl : ∀ c ∈ l, pyLineBreak c = false) :
    ∀ (cur s : Line),
      pySplitlinesGo false cur (l ++ s) = pySplitlinesGo false (cur ++ l) s := by
  induction l with
  | nil =>
    intro cur s
    rw [List.nil_append, List.append_nil]
  | cons c l2 ih =>
    intro cur s
    have hc : pyLineBreak c = false := hl c (by simp)
    rw [List.cons_append, pySplitlinesGo_plain _ _ _ c hc,
      ih (fun x hx => hl x (by simp [hx])) (cur ++ [c]) s]
    simp

/-- On a payload whose lines are line-break free, `str.splitlines`
recovers exactly the line list. -/
theorem pySplitlines_joinNL (t : Text) (ht : ∀ l ∈ t, lineBreakFree l) :
    pySplitlines (joinNL t) = t := by
  unfold pySplitlines
  induction t with
  | nil => rfl
  | cons l t2 ih =>
    have hl : joinNL (l :: t2) = l ++ ('\n' :: joinNL t2) := by
      simp [joinNL]
    rw [hl, pySplitlinesGo_append l (ht l (by simp)) [] _, List.nil_append,
      pySplitlinesGo_newline, ih (fun x hx => ht x (by simp [hx]))]

theorem mem_of_mem_rstripNL (t : Text) (l : Line) (h : l ∈ rstripNL t) : l ∈ t := by
  unfold rstripNL dropTrailingBlanks at h
  have hs : t = (t.reverse.dropWhile (fun x => decide (x = []))).reverse ++
      (t.reverse.takeWhile (fun x => decide (x = []))).reverse := by
    rw [← List.reverse_append, ← List.takeWhile_append_dropWhile
      (fun x => decide (x = ([] : Line))) t.reverse]
    simp
  rw [hs]
  exact List.mem_append_left _ h

theorem mem_chunkOf (t : Text) (l : Line) (h : l ∈ chunkOf t) : l ∈ t ∨ l = [] := by
  unfold chunkOf at h
  by_cases hr : rstripNL t = []
  · rw [if_pos hr] at h
    simp at h
    exact Or.inr h
  · rw [if_neg hr] at h
    exact Or.inl (mem_of_mem_rstripNL t l h)

theorem breakFree_beginMarker (n : Line) (hn : lineBreakFree n) :
    lineBreakFree (beginMarker n) := by
  intro c hc
  unfold beginMarker at hc
  rcases List.mem_append.mp hc with hc | hc
  · rcases List.mem_append.mp hc with hc | hc
    · exact (by decide : ∀ x ∈ ("; ===FILE: ".data : Line), pyLineBreak x = false) c hc
    · exact hn c hc
  · exact (by decide : ∀ x ∈ (" ===".data : Line), pyLineBreak x = false) c hc

theorem breakFree_endMarker (n : Line) (hn : lineBreakFree n) :
    lineBreakFree (endMarker n) := by
  intro c hc
  unfold endMarker at hc
  rcases List.mem_append.mp hc with hc | hc
  · rcases List.mem_append.mp hc with hc | hc
    · exact (by decide : ∀ x ∈ ("; ===END FILE: ".data : Line),
        pyLineBreak x = false) c hc
    · exact hn c hc
  · exact (by decide : ∀ x ∈ (" ===".data : Line), pyLineBreak x = false) c hc

/-- Every line of the joined payload is line-break free when the names
and content lines are. -/
theorem joinCfgFiles_breakFree (m : List (Line × Text))
    (hnames : ∀ p ∈ m, lineBreakFree p.1)
    (hcontent : ∀ p ∈ m, ∀ l ∈ p.2, lineBreakFree l) :
    ∀ l ∈ joinCfgFiles m, lineBreakFree l := by
  intro l hl
  unfold joinCfgFiles at hl
  rw [joinFold] at hl
  have hl2 : l ∈ (m.map blockOf).flatten := by
    apply mem_of_mem_rstripNL
    simpa using hl
  rw [List.mem_flatten] at hl2
  obtain ⟨blk, hblk, hlb⟩ := hl2
  rw [List.mem_map] at hblk
  obtain ⟨p, hp, hpe⟩ := hblk
  rw [← hpe] at hlb
  unfold blockOf at hlb
  rcases List.mem_append.mp hlb with hlb | hlb
  · rcases List.mem_append.mp hlb with hlb | hlb
    · rcases List.mem_append.mp hlb with hlb | hlb
      · simp only [List.mem_singleton] at hlb
        rw [hlb]
        exact breakFree_beginMarker p.1 (hnames p hp)
      · rcases mem_chunkOf p.2 l hlb with h | h
        · exact hcontent p hp l h
        · rw [h]
          intro c hc
          cases hc
    · simp only [List.mem_singleton] at hlb
      rw [hlb]
      exact breakFree_endMarker p.1 (hnames p hp)
  · simp only [List.mem_singleton] at hlb
    rw [hlb]
    intro c hc
    cases hc

/-- The line-list level of the round trip: splitting the joined line
list recovers the mapping with each text trailing-blank normalized. -/
theorem bundle_roundtrip_lines (m : List (Line × Text))
    (hnodup : (m.map Prod.fst).Nodup)
    (hclean : ∀ p ∈ m, cleanName p.1)
    (hbenign : ∀ p ∈ m, ∀ l ∈ p.2, benignLine l) :
    splitCfgFiles (joinCfgFiles m) = m.map (fun p => (p.1, rstripNL p.2)) := by
  rcases List.eq_nil_or_concat m with rfl | ⟨m', p, rfl⟩
  · rfl
  · obtain ⟨n, t⟩ := p
    rw [List.concat_eq_append] at *
    rw [joinCfgFiles_concat]
    unfold splitCfgFiles
    rw [List.foldl_append]
    have hnames : (m'.map Prod.fst ++ [n]).Nodup := by
      simpa using hnodup
    have hm'nodup : (([] : List (Line × Text)).map Prod.fst ++ m'.map Prod.fst).Nodup := by
      simpa using hnames.of_append_left
    rw [foldl_blocks m' [] hm'nodup
      (fun q hq => hclean q (List.mem_append_left _ hq))
      (fun q hq => hbenign q (List.mem_append_left _ hq))]
    simp only [List.nil_append]
    have hfresh : n ∉ (m'.map (fun p => (p.1, chunkOf p.2))).map Prod.fst := by
      have h1 : (m'.map (fun p => (p.1, chunkOf p.2))).map Prod.fst = m'.map Prod.fst := by
        simp
      rw [h1]
      exact not_mem_of_nodup_append_cons (A := m'.map Prod.fst) (B := []) (by simpa using hnames)
    rw [foldl_block n t _ hfresh
      (hclean (n, t) (List.mem_append_right _ (by simp)))
      (hbenign (n, t) (List.mem_append_right _ (by simp)))]
    simp only []
    rw [List.map_append, List.map_append]
    congr 1
    · rw [List.map_map]
      apply List.map_congr_left
      intro q _
      simp [rstripNL_chunkOf]
    · simp [rstripNL_chunkOf]


/-- Claim C2 (amended): the full round trip — join, render to the
payload string, re-split into lines with Python's `splitlines`, then
split back into files — holds for every ordered mapping whose filenames
are pairwise distinct, non-empty, free of leading or trailing
whitespace and of line-break characters, and whose text lines are never
recognized by the splitter as markers (no line matches the begin-marker
regex — even with surrounding whitespace — and no line strips to one
starting with the end-marker head) and contain no character that
`splitlines` breaks at (`\r`, `\v`, `\f`, `\x1c`–`\x1e`, NEL,
`U+2028`, `U+2029`); each returned text is the original with trailing
newlines normalized to exactly one. -/
theorem bundle_roundtrip (m : List (Line × Text))
    (hnodup : (m.map Prod.fst).Nodup)
    (hclean : ∀ p ∈ m, cleanName p.1)
    (hnbreak : ∀ p ∈ m, lineBreakFree p.1)
    (hbenign : ∀ p ∈ m, ∀ l ∈ p.2, benignLine l)
    (hlbreak : ∀ p ∈ m, ∀ l ∈ p.2, lineBreakFree l) :
    splitCfgFiles (pySplitlines (joinNL (joinCfgFiles m))) =
      m.map (fun p => (p.1, rstripNL p.2)) := by
  rw [pySplitlines_joinNL (joinCfgFiles m) (joinCfgFiles_breakFree m hnbreak hlbreak)]
  exact bundle_roundtrip_lines m hnodup hclean hbenign

theorem bundle_roundtrip_amended_witness :
    splitCfgFiles (pySplitlines (joinNL (joinCfgFiles [(lineOf "a", [lineOf "x=1"])]))) =
      [(lineOf "a", [lineOf "x=1"])] := by
  have h := bundle_roundtrip [(lineOf "a", [lineOf "x=1"])] (by decide)
    (by
      intro p hp
      simp only [List.mem_singleton] at hp
      subst hp
      refine ⟨by decide, ?_, ?_⟩
      · intro c hc
        have h2 : some 'a' = some c :=
          (by decide : (lineOf "a").head? = some 'a').symm.trans hc
        injection h2 with h2
        subst h2
        decide
      · intro c hc
        have h2 : some 'a' = some c :=
          (by decide : (lineOf "a").getLast? = some 'a').symm.trans hc
        injection h2 with h2
        subst h2
        decide)
    (by
      intro p hp
      simp only [List.mem_singleton] at hp
      subst hp
      unfold lineBreakFree
      decide)
    (by
      intro p hp l hl
      simp only [List.mem_singleton] at hp
      subst hp
      simp only [List.mem_singleton] at hl
      subst hl
      exact ⟨by decide, by decide⟩)
    (by
      intro p hp l hl
      simp only [List.mem_singleton] at hp
      subst hp
      simp only [List.mem_singleton] at hl
      subst hl
      unfold lineBreakFree
      decide)
  simpa using h


/-! ### Merge walk: active-key completeness and obsolete-key tombstones (claims C5 and C6) -/

theorem alookup_aset_self {α : Type} (k : Line) (v : α) (m : List (Line × α)) :
    alookup k (aset k v m) = some v := by
  induction m with
  | nil => simp [aset, alookup]
  | cons hd tl ih =>
    obtain ⟨a, b⟩ := hd
    by_cases h : a = k
    · simp [aset, alookup, h]
    · simp [aset, alookup, h, ih]

theorem alookup_aset_ne {α : Type} (S k : Line) (v : α) (m : List (Line × α))
    (h : S ≠ k) : alookup S (aset k v m) = alookup S m := by
  have hk : ¬k = S := fun e => h (Eq.symm e)
  induction m with
  | nil => simp [aset, alookup, hk]
  | cons hd tl ih =>
    obtain ⟨a, b⟩ := hd
    by_cases ha : a = k
    · subst ha
      simp [aset, alookup, hk]
    · simp only [aset, if_neg ha, alookup]
      by_cases hS : a = S
      · simp [hS]
      · simp [hS, ih]

theorem alookup_append_or {α : Type} (S : Line) (m1 m2 : List (Line × α)) :
    alookup S (m1 ++ m2) =
      match alookup S m1 with
      | some v => some v
      | none => alookup S m2 := by
  induction m1 with
  | nil => simp [alookup]
  | cons hd tl ih =>
    obtain ⟨a, b⟩ := hd
    by_cases h : a = S
    · simp [alookup, h]
    · simp [alookup, h, ih]

theorem alookup_setdefault_some {α : Type} (S k : Line) (v w : α) (m : List (Line × α))
    (h : alookup S m = some w) : alookup S (setdefault k v m) = some w := by
  unfold setdefault
  by_cases hk : (alookup k m).isSome = true
  · rw [if_pos hk]; exact h
  · rw [if_neg hk, alookup_append_or, h]

theorem alookup_setdefault_ne {α : Type} (S k : Line) (v : α) (m : List (Line × α))
    (h : S ≠ k) : alookup S (setdefault k v m) = alookup S m := by
  unfold setdefault
  by_cases hk : (alookup k m).isSome = true
  · rw [if_pos hk]
  · rw [if_neg hk, alookup_append_or]
    cases hS : alookup S m with
    | some w => rfl
    | none =>
      simp only [alookup]
      rw [if_neg (fun e => h (Eq.symm e))]

theorem mem_dropWhile_of_mem {α : Type} [DecidableEq α] (p : α → Bool) (l : List α)
    (x : α) (hx : x ∈ l) (hpx : p x = false) : x ∈ l.dropWhile p := by
  have hsplit := List.takeWhile_append_dropWhile p l
  rcases List.mem_append.mp (by rw [hsplit]; exact hx) with h | h
  · exact absurd (List.mem_takeWhile_imp h) (by simp [hpx])
  · exact h

theorem dropWhile_congr_mem {α : Type} (p q : α → Bool) (l : List α)
    (h : ∀ x ∈ l, p x = q x) : l.dropWhile p = l.dropWhile q := by
  induction l with
  | nil => rfl
  | cons c t ih =>
    have hc := h c (by simp)
    by_cases hp : p c = true
    · rw [List.dropWhile_cons, List.dropWhile_cons, hp, ← hc, hp]
      simp only [if_true]
      exact ih (fun x hx => h x (by simp [hx]))
    · have hp' : p c = false := by simpa using hp
      have hq' : q c = false := by rw [← hc]; exact hp'
      rw [List.dropWhile_cons, List.dropWhile_cons, hp', hq']
      simp

theorem dropWhile_append_of_all {α : Type} (p : α → Bool) (A B : List α)
    (h : ∀ x ∈ A, p x = true) : (A ++ B).dropWhile p = B.dropWhile p := by
  induction A with
  | nil => rfl
  | cons c t ih =>
    rw [List.cons_append, List.dropWhile_cons, h c (by simp)]
    simp only [if_true]
    exact ih (fun x hx => h x (by simp [hx]))

theorem takeWhile_append_of_all {α : Type} (p : α → Bool) (A B : List α)
    (h : ∀ x ∈ A, p x = true) : (A ++ B).takeWhile p = A ++ B.takeWhile p := by
  induction A with
  | nil => rfl
  | cons c t ih =>
    rw [List.cons_append, List.takeWhile_cons, h c (by simp)]
    simp only [if_true, List.cons_append]
    rw [ih (fun x hx => h x (by simp [hx]))]

theorem head_of_dropWhile_cons {α : Type} (p : α → Bool) (l : List α) (c : α)
    (t : List α) (h : l.dropWhile p = c :: t) : p c = false := by
  induction l with
  | nil => simp [List.dropWhile] at h
  | cons d l' ih =>
    rw [List.dropWhile_cons] at h
    by_cases hd : p d = true
    · rw [if_pos hd] at h
      exact ih h
    · rw [if_neg hd] at h
      injection h with h1 _
      subst h1
      simpa using hd

theorem mem_of_mem_takeWhile {α : Type} (p : α → Bool) (l : List α) (x : α)
    (hx : x ∈ l.takeWhile p) : x ∈ l := by
  have hs := List.takeWhile_append_dropWhile p l
  rw [← hs]
  exact List.mem_append_left _ hx

theorem pyStrip_cons_head (c : Char) (xs : Line) (hc : pyIsSpace c = false) :
    (pyStrip (c :: xs)).head? = some c := by
  unfold pyStrip
  rw [List.dropWhile_cons, if_neg (by simp [hc])]
  have hZne : (c :: xs).reverse.dropWhile pyIsSpace ≠ [] := by
    intro hnil
    rw [List.dropWhile_eq_nil_iff] at hnil
    have := hnil c (by simp)
    rw [hc] at this
    exact Bool.false_ne_true this
  obtain ⟨P, hP⟩ := List.dropWhile_suffix (l := (c :: xs).reverse) (p := pyIsSpace)
  have hlast : ((c :: xs).reverse.dropWhile pyIsSpace).getLast? = some c := by
    have h1 : (c :: xs).reverse.getLast? = some c := by
      rw [show (c :: xs).reverse = xs.reverse ++ [c] by simp]
      rw [List.getLast?_append_of_ne_nil _ (by simp)]
      rfl
    rw [← hP] at h1
    rw [List.getLast?_append_of_ne_nil _ hZne] at h1
    exact h1
  rw [List.head?_reverse]
  exact hlast

theorem pyStrip_append_space_all (P B : Line) (h : ∀ x ∈ P, pyIsSpace x = true) :
    pyStrip (P ++ B) = pyStrip B := by
  unfold pyStrip
  rw [dropWhile_append_of_all pyIsSpace P B h]

theorem beforeEq_append_stripLead (l : Line) :
    beforeEq l =
      l.takeWhile (fun c => c = ';' || c = ' ' || c = '\t') ++ beforeEq (stripLead l) := by
  unfold beforeEq stripLead
  have hsplit := List.takeWhile_append_dropWhile
    (fun c => c = ';' || c = ' ' || c = '\t') l
  conv_lhs => rw [← hsplit]
  rw [takeWhile_append_of_all _ _ _ ?_]
  intro x hx
  have := List.mem_takeWhile_imp hx
  simp only [Bool.or_eq_true, decide_eq_true_eq] at this
  rcases this with (h | h) | h <;> simp [h]

theorem walkKey_cases (l : Line) :
    pyStrip (beforeEq l) = pyStrip (beforeEq (stripLead l)) ∨
    (pyStrip (beforeEq l)).head? = some ';' := by
  set P := l.takeWhile (fun c => c = ';' || c = ' ' || c = '\t') with hPdef
  have hPmem : ∀ x ∈ P, (x = ';' ∨ x = ' ' ∨ x = '\t') := by
    intro x hx
    have h0 := List.mem_takeWhile_imp hx
    simp only [Bool.or_eq_true, decide_eq_true_eq] at h0
    tauto
  rw [beforeEq_append_stripLead l]
  by_cases hsc : ';' ∈ P
  · right
    have hR := List.takeWhile_append_dropWhile (fun c => decide (c ≠ ';')) P
    set W := P.takeWhile (fun c => decide (c ≠ ';')) with hW
    set R' := P.dropWhile (fun c => decide (c ≠ ';')) with hR'
    have hRne : R' ≠ [] := by
      intro hnil
      rw [hR', List.dropWhile_eq_nil_iff] at hnil
      have := hnil ';' hsc
      simp at this
    obtain ⟨c0, R, hc0⟩ : ∃ c0 R, R' = c0 :: R := by
      cases hcc : R' with
      | nil => exact absurd hcc hRne
      | cons a b => exact ⟨a, b, rfl⟩
    have hc0eq : c0 = ';' := by
      have := head_of_dropWhile_cons _ P c0 R (by rw [← hR']; exact hc0)
      simpa using this
    subst hc0eq
    have hWws : ∀ x ∈ W, pyIsSpace x = true := by
      intro x hx
      have h1 : x ∈ P := mem_of_mem_takeWhile _ _ _ hx
      have h2 : x ≠ ';' := by
        have := List.mem_takeWhile_imp hx
        simpa using this
      rcases hPmem x h1 with h | h | h
      · exact absurd h h2
      · simp [h, pyIsSpace]
      · simp [h, pyIsSpace]
    have hPeq : P ++ beforeEq (stripLead l) = W ++ (';' :: (R ++ beforeEq (stripLead l))) := by
      conv_lhs => rw [← hR, hc0]
      simp
    rw [hPeq, pyStrip_append_space_all W _ hWws]
    exact pyStrip_cons_head ';' _ (by decide)
  · left
    apply pyStrip_append_space_all
    intro x hx
    rcases hPmem x hx with h | h | h
    · exact absurd (h ▸ hx) hsc
    · simp [h, pyIsSpace]
    · simp [h, pyIsSpace]

theorem regexStripLead_eq_stripLead_of_tame (l : Line)
    (ht : ∀ c ∈ l, pyIsSpace c = true → c = ' ' ∨ c = '\t') :
    regexStripLead l = stripLead l := by
  unfold regexStripLead stripLead
  apply dropWhile_congr_mem
  intro x hx
  by_cases h1 : x = ';'
  · simp [h1]
  · by_cases h2 : pyIsSpace x = true
    · rcases ht x hx h2 with h | h <;> simp [h, pyIsSpace]
    · have h2' : pyIsSpace x = false := by simpa using h2
      have h3 : x ≠ ' ' := by
        intro e; rw [e] at h2'; simp [pyIsSpace] at h2'
      have h4 : x ≠ '\t' := by
        intro e; rw [e] at h2'; simp [pyIsSpace] at h2'
      simp [h1, h2', h3, h4]

theorem mem_of_mem_stripLead (l : Line) (x : Char) (hx : x ∈ stripLead l) : x ∈ l := by
  unfold stripLead at hx
  have hs := List.takeWhile_append_dropWhile
    (fun c => c = ';' || c = ' ' || c = '\t') l
  rw [← hs]
  exact List.mem_append_right _ hx

theorem eq_mem_stripLead (l : Line) (h : '=' ∈ l) : '=' ∈ stripLead l := by
  unfold stripLead
  exact mem_dropWhile_of_mem _ l '=' h (by decide)

theorem stripLead_stripLead (l : Line) : stripLead (stripLead l) = stripLead l := by
  unfold stripLead
  exact dropWhile_dropWhile _ l

theorem parseKey_head_ne_semi (l : Line)
    (ht : ∀ c ∈ l, pyIsSpace c = true → c = ' ' ∨ c = '\t') :
    (pyStrip (beforeEq (stripLead l))).head? ≠ some ';' := by
  cases hD : stripLead l with
  | nil => simp [beforeEq, pyStrip]
  | cons c D' =>
    have hcpred : (c = ';' || c = ' ' || c = '\t') = false :=
      head_of_dropWhile_cons _ l c D' hD
    simp only [Bool.or_eq_false_iff, decide_eq_false_iff_not] at hcpred
    obtain ⟨⟨hc1, hc2⟩, hc3⟩ := hcpred
    by_cases hceq : c = '='
    · subst hceq
      simp [beforeEq, List.takeWhile_cons, pyStrip]
    · have hbe : beforeEq (c :: D') = c :: D'.takeWhile (fun x => decide (x ≠ '=')) := by
        simp [beforeEq, List.takeWhile_cons, hceq]
      rw [hbe]
      have hcws : pyIsSpace c = false := by
        cases hws : pyIsSpace c with
        | false => rfl
        | true =>
          rcases ht c (mem_of_mem_stripLead l c (by rw [hD]; simp)) hws with h | h
          · exact absurd h hc2
          · exact absurd h hc3
      rw [pyStrip_cons_head c _ hcws]
      intro hcon
      injection hcon with hcon
      exact hc1 hcon

theorem isHeaderLine_of_stripLead_eq (e l : Line) (he : stripLead l = e) :
    isHeaderLine e = isHeaderLine l := by
  unfold isHeaderLine
  rw [← he, stripLead_stripLead]

theorem emitted_props (ruLine e K : Line)
    (ht : ∀ c ∈ ruLine, pyIsSpace c = true → c = ' ' ∨ c = '\t')
    (heq : '=' ∈ ruLine) (hnh : isHeaderLine ruLine = false)
    (hK : K = pyStrip (beforeEq (stripLead ruLine)))
    (he : e = if ruLine.head? = some ';' then regexStripLead ruLine else ruLine) :
    isHeaderLine e = false ∧ e.head? ≠ some ';' ∧ '=' ∈ e ∧
      pyStrip (beforeEq (stripLead e)) = K := by
  by_cases hh : ruLine.head? = some ';'
  · rw [if_pos hh] at he
    rw [regexStripLead_eq_stripLead_of_tame ruLine ht] at he
    have hse : stripLead e = e := by rw [he, stripLead_stripLead]
    refine ⟨?_, ?_, ?_, ?_⟩
    · rw [isHeaderLine_of_stripLead_eq e ruLine he.symm]
      exact hnh
    · cases hcase : e with
      | nil => simp
      | cons c t =>
        have hcpred : (c = ';' || c = ' ' || c = '\t') = false := by
          apply head_of_dropWhile_cons (fun c => c = ';' || c = ' ' || c = '\t') ruLine c t
        
          rw [← hcase]
          rw [he]
          rfl
        simp only [Bool.or_eq_false_iff, decide_eq_false_iff_not] at hcpred
        intro hcon
        injection hcon with hcon
        exact hcpred.1.1 hcon
    · rw [he]
      exact eq_mem_stripLead ruLine heq
    · rw [hse, he, hK]
  · rw [if_neg hh] at he
    subst he
    refine ⟨hnh, ?_, heq, hK.symm⟩
    intro hcon
    exact hh hcon

theorem headerState_cons_header (c : Option Line) (l : Line) (t : Text)
    (hH : isHeaderLine l = true) :
    headerState c (l :: t) = headerState (some (stripLead l)) t := by
  unfold headerState
  rw [List.foldl_cons, if_pos hH]

theorem headerState_cons_nonheader (c : Option Line) (l : Line) (t : Text)
    (hH : isHeaderLine l = false) :
    headerState c (l :: t) = headerState c t := by
  unfold headerState
  rw [List.foldl_cons, if_neg (by simp [hH])]

theorem headerState_append (c : Option Line) (a b : Text) :
    headerState c (a ++ b) = headerState (headerState c a) b := by
  unfold headerState
  rw [List.foldl_append]

theorem headerState_no_header (c : Option Line) (ls : Text)
    (h : ∀ x ∈ ls, isHeaderLine x = false) : headerState c ls = c := by
  induction ls generalizing c with
  | nil => rfl
  | cons x t ih =>
    rw [headerState_cons_nonheader c x t (h x (by simp))]
    exact ih c (fun y hy => h y (by simp [hy]))

theorem activeKeysFrom_cons_header (c : Option Line) (l : Line) (t : Text)
    (hH : isHeaderLine l = true) :
    activeKeysFrom c (l :: t) = activeKeysFrom (some (stripLead l)) t := by
  simp only [activeKeysFrom, hH, if_true]

theorem activeKeysFrom_cons_none (l : Line) (t : Text) (hH : isHeaderLine l = false) :
    activeKeysFrom none (l :: t) = activeKeysFrom none t := by
  simp only [activeKeysFrom, hH, Bool.false_eq_true, if_false]

theorem activeKeysFrom_cons_key (s : Line) (l : Line) (t : Text)
    (hH : isHeaderLine l = false) (hk : '=' ∈ l ∧ l.head? ≠ some ';') :
    activeKeysFrom (some s) (l :: t) =
      (s, pyStrip (beforeEq (stripLead l))) :: activeKeysFrom (some s) t := by
  simp only [activeKeysFrom, hH, Bool.false_eq_true, if_false]
  rw [if_pos hk]

theorem activeKeysFrom_cons_skip (s : Line) (l : Line) (t : Text)
    (hH : isHeaderLine l = false) (hk : ¬('=' ∈ l ∧ l.head? ≠ some ';')) :
    activeKeysFrom (some s) (l :: t) = activeKeysFrom (some s) t := by
  simp only [activeKeysFrom, hH, Bool.false_eq_true, if_false]
  rw [if_neg hk]

theorem activeKeysFrom_append (c : Option Line) (a b : Text) :
    activeKeysFrom c (a ++ b) = activeKeysFrom c a ++ activeKeysFrom (headerState c a) b := by
  induction a generalizing c with
  | nil => rfl
  | cons l t ih =>
    rw [List.cons_append]
    by_cases hH : isHeaderLine l = true
    · rw [activeKeysFrom_cons_header c l (t ++ b) hH, activeKeysFrom_cons_header c l t hH,
        headerState_cons_header c l t hH, ih]
    · rw [Bool.not_eq_true] at hH
      rw [headerState_cons_nonheader c l t hH]
      cases c with
      | none =>
        rw [activeKeysFrom_cons_none l (t ++ b) hH, activeKeysFrom_cons_none l t hH, ih]
      | some s =>
        by_cases hk : '=' ∈ l ∧ l.head? ≠ some ';'
        · rw [activeKeysFrom_cons_key s l (t ++ b) hH hk, activeKeysFrom_cons_key s l t hH hk,
            ih]
          rfl
        · rw [activeKeysFrom_cons_skip s l (t ++ b) hH hk,
            activeKeysFrom_cons_skip s l t hH hk, ih]

theorem activeKeysFrom_blank_cons (c : Option Line) (ls : Text) :
    activeKeysFrom c ([] :: ls) = activeKeysFrom c ls := by
  cases c with
  | none => rw [activeKeysFrom_cons_none [] ls (by decide)]
  | some s => rw [activeKeysFrom_cons_skip s [] ls (by decide) (by simp)]

theorem activeKeysFrom_collapseGo (mc : Nat) :
    ∀ (ls : Text) (r : Nat) (c : Option Line),
      activeKeysFrom c (collapseGo mc r ls) = activeKeysFrom c ls := by
  intro ls
  induction ls with
  | nil => intro r c; rfl
  | cons l t ih =>
    intro r c
    unfold collapseGo
    by_cases hb : l = []
    · subst hb
      rw [if_pos rfl]
      by_cases hr : r + 1 ≤ mc
      · rw [if_pos hr, activeKeysFrom_blank_cons, activeKeysFrom_blank_cons, ih]
      · rw [if_neg hr, activeKeysFrom_blank_cons, ih]
    · rw [if_neg hb]
      by_cases hH : isHeaderLine l = true
      · rw [activeKeysFrom_cons_header c l _ hH, activeKeysFrom_cons_header c l t hH, ih]
      · rw [Bool.not_eq_true] at hH
        cases c with
        | none => rw [activeKeysFrom_cons_none l _ hH, activeKeysFrom_cons_none l t hH, ih]
        | some s =>
          by_cases hk : '=' ∈ l ∧ l.head? ≠ some ';'
          · rw [activeKeysFrom_cons_key s l _ hH hk, activeKeysFrom_cons_key s l t hH hk, ih]
          · rw [activeKeysFrom_cons_skip s l _ hH hk,
              activeKeysFrom_cons_skip s l t hH hk, ih]

theorem activeKeysFrom_all_blank (c : Option Line) (ls : Text)
    (h : ∀ x ∈ ls, x = ([] : Line)) : activeKeysFrom c ls = [] := by
  induction ls generalizing c with
  | nil => rfl
  | cons l t ih =>
    have hl : l = [] := h l (by simp)
    subst hl
    rw [activeKeysFrom_blank_cons]
    exact ih c (fun y hy => h y (by simp [hy]))

theorem activeKeysFrom_dropTrailingBlanks (c : Option Line) (ls : Text) :
    activeKeysFrom c (dropTrailingBlanks ls) = activeKeysFrom c ls := by
  have hs : ls = dropTrailingBlanks ls ++ (ls.reverse.takeWhile
      (fun l => decide (l = []))).reverse := by
    unfold dropTrailingBlanks
    rw [← List.reverse_append, ← List.takeWhile_append_dropWhile
      (fun l => decide (l = ([] : Line))) ls.reverse]
    simp
  conv_rhs => rw [hs]
  rw [activeKeysFrom_append]
  have hblank : activeKeysFrom (headerState c (dropTrailingBlanks ls))
      ((ls.reverse.takeWhile (fun l => decide (l = []))).reverse) = [] := by
    apply activeKeysFrom_all_blank
    intro x hx
    rw [List.mem_reverse] at hx
    have := List.mem_takeWhile_imp hx
    simpa using this
  rw [hblank, List.append_nil]

theorem mem_collapseGo (mc : Nat) :
    ∀ (ls : Text) (r : Nat) (l : Line), l ∈ ls → l ≠ [] → l ∈ collapseGo mc r ls := by
  intro ls
  induction ls with
  | nil => intro r l h; simp at h
  | cons x t ih =>
    intro r l hl hne
    unfold collapseGo
    by_cases hb : x = []
    · subst hb
      have hlt : l ∈ t := by
        rcases List.mem_cons.mp hl with h | h
        · exact absurd h hne
        · exact h
      by_cases hr : r + 1 ≤ mc
      · rw [if_pos rfl, if_pos hr]
        exact List.mem_cons_of_mem _ (ih (r + 1) l hlt hne)
      · rw [if_pos rfl, if_neg hr]
        exact ih (r + 1) l hlt hne
    · rw [if_neg hb]
      rcases List.mem_cons.mp hl with h | h
      · subst h
        exact List.mem_cons_self _ _
      · exact List.mem_cons_of_mem _ (ih 0 l h hne)

theorem mem_dropTrailingBlanks (ls : Text) (l : Line) (hl : l ∈ ls) (hne : l ≠ []) :
    l ∈ dropTrailingBlanks ls := by
  have hs : ls = dropTrailingBlanks ls ++ (ls.reverse.takeWhile
      (fun x => decide (x = []))).reverse := by
    unfold dropTrailingBlanks
    rw [← List.reverse_append, ← List.takeWhile_append_dropWhile
      (fun x => decide (x = ([] : Line))) ls.reverse]
    simp
  rw [hs] at hl
  rcases List.mem_append.mp hl with h | h
  · exact h
  · exfalso
    rw [List.mem_reverse] at h
    have := List.mem_takeWhile_imp h
    simp at this
    exact hne this

theorem activeKeysFrom_header_cons (c1 c2 : Option Line) (h : Line) (t : Text)
    (hH : isHeaderLine h = true) :
    activeKeysFrom c1 (h :: t) = activeKeysFrom c2 (h :: t) := by
  rw [activeKeysFrom_cons_header c1 h t hH, activeKeysFrom_cons_header c2 h t hH]

theorem sections_extend (cs line S : Line) (ruS : List (Line × List Line))
    (lns : List Line) (l : Line)
    (hS : alookup S ruS = some lns) (hl : l ∈ lns) :
    ∃ lns', alookup S (aset cs (((alookup cs ruS).getD []) ++ [line]) ruS) = some lns' ∧
      l ∈ lns' := by
  by_cases h : S = cs
  · subst h
    refine ⟨((alookup S ruS).getD []) ++ [line], alookup_aset_self _ _ _, ?_⟩
    rw [hS]
    exact List.mem_append_left _ hl
  · exact ⟨lns, by rw [alookup_aset_ne S cs _ ruS h]; exact hS, hl⟩

theorem sections_extend_setdefault (cs line S : Line) (ruS : List (Line × List Line))
    (lns : List Line) (l : Line)
    (hS : alookup S ruS = some lns) (hl : l ∈ lns) :
    ∃ lns', alookup S (aset cs (((alookup cs (setdefault cs [] ruS)).getD []) ++ [line])
      (setdefault cs [] ruS)) = some lns' ∧ l ∈ lns' := by
  by_cases h : S = cs
  · subst h
    refine ⟨((alookup S (setdefault S [] ruS)).getD []) ++ [line],
      alookup_aset_self _ _ _, ?_⟩
    rw [alookup_setdefault_some S S [] lns ruS hS]
    exact List.mem_append_left _ hl
  · refine ⟨lns, ?_, hl⟩
    rw [alookup_aset_ne S cs _ _ h, alookup_setdefault_ne S cs [] ruS h]
    exact hS

theorem ruKeyFacts_step (P : Line → Prop) (st : RuParse) (line : Line)
    (hinv : ruKeyFacts P st) (hP : P line) : ruKeyFacts P (parseRuStep st line) := by
  intro S km K l hkm hK
  by_cases hH : isHeaderLine line = true
  · -- header branch: ruKeys only gains an empty entry
    simp only [parseRuStep, hH, if_true] at hkm ⊢
    have hsec : (parseRuStep st line).ruSections =
        aset (stripLead line) (((alookup (stripLead line)
          (setdefault (stripLead line) [] st.ruSections)).getD []) ++ [line])
          (setdefault (stripLead line) [] st.ruSections) := by
      simp [parseRuStep, hH]
    unfold setdefault at hkm
    by_cases hks : (alookup (stripLead line) st.ruKeys).isSome = true
    · rw [if_pos hks] at hkm
      obtain ⟨h1, h2, h3, h4, lns, h5, h6⟩ := hinv S km K l hkm hK
      obtain ⟨lns', h7, h8⟩ := sections_extend_setdefault (stripLead line) line S
        st.ruSections lns l h5 h6
      exact ⟨h1, h2, h3, h4, lns', by rw [hsec] at *; exact h7, h8⟩
    · rw [if_neg hks, alookup_append_or] at hkm
      cases hold : alookup S st.ruKeys with
      | some kmold =>
        rw [hold] at hkm
        injection hkm with hkm
        subst hkm
        obtain ⟨h1, h2, h3, h4, lns, h5, h6⟩ := hinv S kmold K l hold hK
        obtain ⟨lns', h7, h8⟩ := sections_extend_setdefault (stripLead line) line S
          st.ruSections lns l h5 h6
        exact ⟨h1, h2, h3, h4, lns', by rw [hsec] at *; exact h7, h8⟩
      | none =>
        rw [hold] at hkm
        simp only [alookup] at hkm
        by_cases hSs : stripLead line = S
        · rw [if_pos hSs] at hkm
          injection hkm with hkm
          subst hkm
          simp [alookup] at hK
        · rw [if_neg hSs] at hkm
          simp [alookup] at hkm
  · -- body line
    rw [Bool.not_eq_true] at hH
    cases hcur : st.curr with
    | none =>
      have hid : parseRuStep st line = st := by
        simp [parseRuStep, hH, hcur]
      rw [hid] at hkm ⊢
      exact hinv S km K l hkm hK
    | some cs =>
      by_cases he1 : '=' ∈ line
      · by_cases he2 : '=' ∈ stripLead line
        · -- the key branch
          have hkeys : (parseRuStep st line).ruKeys =
              aset cs (aset (pyStrip (beforeEq (stripLead line))) line
                ((alookup cs st.ruKeys).getD [])) st.ruKeys := by
            simp [parseRuStep, hH, hcur, he1, he2]
          have hsecs : (parseRuStep st line).ruSections =
              aset cs (((alookup cs st.ruSections).getD []) ++ [line]) st.ruSections := by
            simp [parseRuStep, hH, hcur, he1, he2]
          rw [hkeys] at hkm
          rw [hsecs]
          by_cases hScs : S = cs
          · subst hScs
            rw [alookup_aset_self] at hkm
            injection hkm with hkm
            subst hkm
            by_cases hKkey : K = pyStrip (beforeEq (stripLead line))
            · subst hKkey
              rw [alookup_aset_self] at hK
              injection hK with hK
              subst hK
              refine ⟨he1, hH, rfl, hP, ?_⟩
              refine ⟨((alookup S st.ruSections).getD []) ++ [line],
                alookup_aset_self _ _ _, by simp⟩
            · rw [alookup_aset_ne K _ _ _ hKkey] at hK
              cases hold : alookup S st.ruKeys with
              | some kmold =>
                rw [hold] at hK
                simp only [Option.getD_some] at hK
                obtain ⟨h1, h2, h3, h4, lns, h5, h6⟩ := hinv S kmold K l hold hK
                obtain ⟨lns', h7, h8⟩ := sections_extend S line S st.ruSections lns l h5 h6
                exact ⟨h1, h2, h3, h4, lns', h7, h8⟩
              | none =>
                rw [hold] at hK
                simp [alookup] at hK
          · rw [alookup_aset_ne S cs _ _ hScs] at hkm
            obtain ⟨h1, h2, h3, h4, lns, h5, h6⟩ := hinv S km K l hkm hK
            obtain ⟨lns', h7, h8⟩ := sections_extend cs line S st.ruSections lns l h5 h6
            exact ⟨h1, h2, h3, h4, lns', h7, h8⟩
        · have hkeys : (parseRuStep st line).ruKeys = st.ruKeys := by
            simp [parseRuStep, hH, hcur, he1, he2]
          have hsecs : (parseRuStep st line).ruSections =
              aset cs (((alookup cs st.ruSections).getD []) ++ [line]) st.ruSections := by
            simp [parseRuStep, hH, hcur, he1, he2]
          rw [hkeys] at hkm
          rw [hsecs]
          obtain ⟨h1, h2, h3, h4, lns, h5, h6⟩ := hinv S km K l hkm hK
          obtain ⟨lns', h7, h8⟩ := sections_extend cs line S st.ruSections lns l h5 h6
          exact ⟨h1, h2, h3, h4, lns', h7, h8⟩
      · have hkeys : (parseRuStep st line).ruKeys = st.ruKeys := by
          simp [parseRuStep, hH, hcur, he1]
        have hsecs : (parseRuStep st line).ruSections =
            aset cs (((alookup cs st.ruSections).getD []) ++ [line]) st.ruSections := by
          simp [parseRuStep, hH, hcur, he1]
        rw [hkeys] at hkm
        rw [hsecs]
        obtain ⟨h1, h2, h3, h4, lns, h5, h6⟩ := hinv S km K l hkm hK
        obtain ⟨lns', h7, h8⟩ := sections_extend cs line S st.ruSections lns l h5 h6
        exact ⟨h1, h2, h3, h4, lns', h7, h8⟩

theorem ruKeyFacts_foldl (P : Line → Prop) (lines : Text) :
    ∀ st, ruKeyFacts P st → (∀ l ∈ lines, P l) →
      ruKeyFacts P (lines.foldl parseRuStep st) := by
  induction lines with
  | nil => intro st h _; exact h
  | cons l t ih =>
    intro st h hl
    rw [List.foldl_cons]
    exact ih (parseRuStep st l) (ruKeyFacts_step P st l h (hl l (by simp)))
      (fun x hx => hl x (by simp [hx]))

theorem parse_store_facts (dst : Text) (S K l : Line) (km : List (Line × Line))
    (h1 : alookup S (parseRuLines dst).2 = some km) (h2 : alookup K km = some l) :
    '=' ∈ l ∧ isHeaderLine l = false ∧ K = pyStrip (beforeEq (stripLead l)) ∧ l ∈ dst ∧
      (∃ lns, alookup S (parseRuLines dst).1 = some lns ∧ l ∈ lns) := by
  have base : ruKeyFacts (fun x => x ∈ dst) ⟨[], [], none⟩ := by
    intro S' km' K' l' hkm'
    simp [alookup] at hkm'
  have hres := ruKeyFacts_foldl (fun x => x ∈ dst) dst ⟨[], [], none⟩ base (fun _ h => h)
  exact hres S km K l h1 h2

theorem foldl_append_suffix {α β : Type} (f : List α → β → List α)
    (hf : ∀ acc x, ∃ sfx, f acc x = acc ++ sfx) :
    ∀ (l : List β) (acc : List α), ∃ sfx, l.foldl f acc = acc ++ sfx := by
  intro l
  induction l with
  | nil => exact fun acc => ⟨[], (List.append_nil acc).symm⟩
  | cons b t ih =>
    intro acc
    obtain ⟨s1, h1⟩ := hf acc b
    obtain ⟨s2, h2⟩ := ih (f acc b)
    exact ⟨s1 ++ s2, by rw [List.foldl_cons, h2, h1, List.append_assoc]⟩

theorem foldl_mem_of_append {α β : Type} (f : List α → β → List α)
    (hf : ∀ acc x, ∃ sfx, f acc x = acc ++ sfx)
    (l : List β) (acc : List α) (x : α) (hx : x ∈ acc) : x ∈ l.foldl f acc := by
  obtain ⟨sfx, hs⟩ := foldl_append_suffix f hf l acc
  rw [hs]
  exact List.mem_append_left _ hx

theorem mergeStepLine_header (ruK : List (Line × List (Line × Line))) (st : MergeSt)
    (line : Line) (hH : isHeaderLine line = true) :
    mergeStepLine ruK st line =
      { curr := some (stripLead line)
        enSections := if stripLead line ∈ st.enSections then st.enSections
                      else st.enSections ++ [stripLead line]
        enKeys := setdefault (stripLead line) [] st.enKeys
        out := st.out ++ [line] } := by
  simp only [mergeStepLine, hH, if_true]

theorem mergeStepLine_none (ruK : List (Line × List (Line × Line))) (st : MergeSt)
    (line : Line) (hH : isHeaderLine line = false) (hc : st.curr = none) :
    mergeStepLine ruK st line = { st with out := st.out ++ [line] } := by
  simp only [mergeStepLine, hH, Bool.false_eq_true, if_false, hc]

theorem mergeStepLine_skip (ruK : List (Line × List (Line × Line))) (st : MergeSt)
    (line cs : Line) (hH : isHeaderLine line = false) (hc : st.curr = some cs)
    (hk : ¬('=' ∈ line ∧ line.head? ≠ some ';')) :
    mergeStepLine ruK st line = { st with out := st.out ++ [line] } := by
  simp only [mergeStepLine, hH, Bool.false_eq_true, if_false, hc]
  rw [if_neg hk]

theorem mergeStepLine_key (ruK : List (Line × List (Line × Line))) (st : MergeSt)
    (line cs : Line) (hH : isHeaderLine line = false) (hc : st.curr = some cs)
    (hk : '=' ∈ line ∧ line.head? ≠ some ';') :
    mergeStepLine ruK st line =
      { st with
        enKeys := aset cs
          (if pyStrip (beforeEq line) ∈ (alookup cs st.enKeys).getD []
           then (alookup cs st.enKeys).getD []
           else (alookup cs st.enKeys).getD [] ++ [pyStrip (beforeEq line)]) st.enKeys
        out := st.out ++ [emittedLineFor ruK cs line] } := by
  simp only [mergeStepLine, hH, Bool.false_eq_true, if_false, hc, emittedLineFor]
  rw [if_pos hk]

theorem mergeWalk_nil (ruS : List (Line × List Line))
    (ruK : List (Line × List (Line × Line))) (st : MergeSt) :
    mergeWalk ruS ruK [] st = st := rfl

theorem mergeWalk_cons_nb (ruS : List (Line × List Line))
    (ruK : List (Line × List (Line × Line))) (line n : Line) (t : Text) (st : MergeSt)
    (hn : isHeaderLine n = false) :
    mergeWalk ruS ruK (line :: n :: t) st =
      mergeWalk ruS ruK (n :: t) (mergeStepLine ruK st line) := by
  simp only [mergeWalk, hn, Bool.false_eq_true, if_false]

theorem mergeWalk_cons_b_close (ruS : List (Line × List Line))
    (ruK : List (Line × List (Line × Line))) (line : Line) (rest : Text) (st : MergeSt)
    (cs : Line)
    (hb : (match rest with | [] => true | n :: _ => isHeaderLine n) = true)
    (hc : (mergeStepLine ruK st line).curr = some cs) :
    mergeWalk ruS ruK (line :: rest) st =
      mergeWalk ruS ruK rest
        { mergeStepLine ruK st line with
          out := (mergeStepLine ruK st line).out ++
            addObsoleteSectionLines ruS (mergeStepLine ruK st line).enKeys cs
          curr := none } := by
  simp only [mergeWalk, hc]
  split
  next => rfl
  next h => exact absurd hb h

theorem mergeWalk_cons_b_none (ruS : List (Line × List Line))
    (ruK : List (Line × List (Line × Line))) (line : Line) (rest : Text) (st : MergeSt)
    (hb : (match rest with | [] => true | n :: _ => isHeaderLine n) = true)
    (hc : (mergeStepLine ruK st line).curr = none) :
    mergeWalk ruS ruK (line :: rest) st =
      mergeWalk ruS ruK rest (mergeStepLine ruK st line) := by
  simp only [mergeWalk, hc]
  split
  next => rfl
  next h => exact absurd hb h

theorem mergeStepLine_curr_nonheader (ruK : List (Line × List (Line × Line)))
    (st : MergeSt) (line : Line) (hH : isHeaderLine line = false) :
    (mergeStepLine ruK st line).curr = st.curr := by
  cases hc : st.curr with
  | none => rw [mergeStepLine_none ruK st line hH hc]; exact hc
  | some cs =>
    by_cases hk : '=' ∈ line ∧ line.head? ≠ some ';'
    · rw [mergeStepLine_key ruK st line cs hH hc hk]; exact hc
    · rw [mergeStepLine_skip ruK st line cs hH hc hk]; exact hc

theorem mergeStepLine_out_mono (ruK : List (Line × List (Line × Line)))
    (st : MergeSt) (line : Line) :
    ∃ sfx, (mergeStepLine ruK st line).out = st.out ++ sfx := by
  by_cases hH : isHeaderLine line = true
  · rw [mergeStepLine_header ruK st line hH]
    exact ⟨[line], rfl⟩
  · rw [Bool.not_eq_true] at hH
    cases hc : st.curr with
    | none => rw [mergeStepLine_none ruK st line hH hc]; exact ⟨[line], rfl⟩
    | some cs =>
      by_cases hk : '=' ∈ line ∧ line.head? ≠ some ';'
      · rw [mergeStepLine_key ruK st line cs hH hc hk]
        exact ⟨_, rfl⟩
      · rw [mergeStepLine_skip ruK st line cs hH hc hk]
        exact ⟨[line], rfl⟩

theorem getD_setdefault_nil_sub (S k : Line) (m : List (Line × List Line)) :
    (alookup S m).getD [] ⊆ (alookup S (setdefault k [] m)).getD [] := by
  unfold setdefault
  by_cases hs : (alookup k m).isSome = true
  · rw [if_pos hs]
    exact fun x h => h
  · rw [if_neg hs, alookup_append_or]
    cases hS : alookup S m with
    | none => simp
    | some v => exact fun x h => h

theorem getD_enKeys_step_sub (ruK : List (Line × List (Line × Line)))
    (st : MergeSt) (line S : Line) :
    (alookup S st.enKeys).getD [] ⊆ (alookup S (mergeStepLine ruK st line).enKeys).getD [] := by
  by_cases hH : isHeaderLine line = true
  · rw [mergeStepLine_header ruK st line hH]
    exact getD_setdefault_nil_sub S (stripLead line) st.enKeys
  · rw [Bool.not_eq_true] at hH
    cases hc : st.curr with
    | none => rw [mergeStepLine_none ruK st line hH hc]; exact fun x h => h
    | some cs =>
      by_cases hk : '=' ∈ line ∧ line.head? ≠ some ';'
      · rw [mergeStepLine_key ruK st line cs hH hc hk]
        by_cases hScs : S = cs
        · subst hScs
          rw [alookup_aset_self]
          by_cases hmem : pyStrip (beforeEq line) ∈ (alookup S st.enKeys).getD []
          · rw [if_pos hmem]
            exact fun x h => h
          · rw [if_neg hmem]
            exact fun x h => List.mem_append_left _ h
        · rw [alookup_aset_ne S cs _ _ hScs]
          exact fun x h => h
      · rw [mergeStepLine_skip ruK st line cs hH hc hk]
        exact fun x h => h

theorem mergeStepLine_enSections_origin (ruK : List (Line × List (Line × Line)))
    (st : MergeSt) (line S : Line)
    (h : S ∈ (mergeStepLine ruK st line).enSections) :
    S ∈ st.enSections ∨ (isHeaderLine line = true ∧ stripLead line = S) := by
  by_cases hH : isHeaderLine line = true
  · rw [mergeStepLine_header ruK st line hH] at h
    by_cases hmem : stripLead line ∈ st.enSections
    · rw [if_pos hmem] at h
      exact Or.inl h
    · rw [if_neg hmem] at h
      rcases List.mem_append.mp h with h1 | h1
      · exact Or.inl h1
      · simp at h1
        exact Or.inr ⟨hH, h1.symm⟩
  · rw [Bool.not_eq_true] at hH
    cases hc : st.curr with
    | none => rw [mergeStepLine_none ruK st line hH hc] at h; exact Or.inl h
    | some cs =>
      by_cases hk : '=' ∈ line ∧ line.head? ≠ some ';'
      · rw [mergeStepLine_key ruK st line cs hH hc hk] at h
        exact Or.inl h
      · rw [mergeStepLine_skip ruK st line cs hH hc hk] at h
        exact Or.inl h

theorem mergeWalk_cons_cases (ruS : List (Line × List Line))
    (ruK : List (Line × List (Line × Line))) (line : Line) (rest : Text) (st : MergeSt) :
    mergeWalk ruS ruK (line :: rest) st =
      mergeWalk ruS ruK rest (mergeStepLine ruK st line) ∨
    ∃ cs, (mergeStepLine ruK st line).curr = some cs ∧
      (match rest with | [] => true | n :: _ => isHeaderLine n) = true ∧
      mergeWalk ruS ruK (line :: rest) st =
        mergeWalk ruS ruK rest
          { mergeStepLine ruK st line with
            out := (mergeStepLine ruK st line).out ++
              addObsoleteSectionLines ruS (mergeStepLine ruK st line).enKeys cs
            curr := none } := by
  by_cases hb : (match rest with | [] => true | n :: _ => isHeaderLine n) = true
  · cases hc : (mergeStepLine ruK st line).curr with
    | none => exact Or.inl (mergeWalk_cons_b_none ruS ruK line rest st hb hc)
    | some cs =>
      exact Or.inr ⟨cs, rfl, hb, mergeWalk_cons_b_close ruS ruK line rest st cs hb hc⟩
  · cases rest with
    | nil => exact absurd rfl hb
    | cons n t =>
      have hn : isHeaderLine n = false := by
        cases h : isHeaderLine n with
        | false => rfl
        | true => exact absurd h hb
      exact Or.inl (mergeWalk_cons_nb ruS ruK line n t st hn)

theorem mergeWalk_out_mono (ruS : List (Line × List Line))
    (ruK : List (Line × List (Line × Line))) :
    ∀ (rest : Text) (st : MergeSt),
      ∃ sfx, (mergeWalk ruS ruK rest st).out = st.out ++ sfx := by
  intro rest
  induction rest with
  | nil => exact fun st => ⟨[], (List.append_nil _).symm⟩
  | cons line rest ih =>
    intro st
    obtain ⟨s1, h1⟩ := mergeStepLine_out_mono ruK st line
    rcases mergeWalk_cons_cases ruS ruK line rest st with h | ⟨cs, hc, hb, h⟩
    · obtain ⟨s2, h2⟩ := ih (mergeStepLine ruK st line)
      exact ⟨s1 ++ s2, by rw [h, h2, h1, List.append_assoc]⟩
    · obtain ⟨s2, h2⟩ := ih _
      refine ⟨s1 ++ (addObsoleteSectionLines ruS (mergeStepLine ruK st line).enKeys cs ++ s2),
        ?_⟩
      rw [h, h2]
      show (mergeStepLine ruK st line).out ++
        addObsoleteSectionLines ruS (mergeStepLine ruK st line).enKeys cs ++ s2 = _
      rw [h1]
      simp [List.append_assoc]

theorem mergeWalk_enKeys_mono (ruS : List (Line × List Line))
    (ruK : List (Line × List (Line × Line))) :
    ∀ (rest : Text) (st : MergeSt) (S : Line),
      (alookup S st.enKeys).getD [] ⊆
        (alookup S (mergeWalk ruS ruK rest st).enKeys).getD [] := by
  intro rest
  induction rest with
  | nil => exact fun st S x h => h
  | cons line rest ih =>
    intro st S
    have hstep := getD_enKeys_step_sub ruK st line S
    rcases mergeWalk_cons_cases ruS ruK line rest st with h | ⟨cs, hc, hb, h⟩
    · rw [h]
      exact fun x hx => ih (mergeStepLine ruK st line) S (hstep hx)
    · rw [h]
      exact fun x hx => ih _ S (hstep hx)

theorem mergeWalk_enSections_origin (ruS : List (Line × List Line))
    (ruK : List (Line × List (Line × Line))) :
    ∀ (rest : Text) (st : MergeSt) (S : Line),
      S ∈ (mergeWalk ruS ruK rest st).enSections →
      S ∈ st.enSections ∨ ∃ h, h ∈ rest ∧ isHeaderLine h = true ∧ stripLead h = S := by
  intro rest
  induction rest with
  | nil => exact fun st S h => Or.inl h
  | cons line rest ih =>
    intro st S hfin
    have hrec : S ∈ (mergeStepLine ruK st line).enSections ∨
        ∃ h, h ∈ rest ∧ isHeaderLine h = true ∧ stripLead h = S := by
      rcases mergeWalk_cons_cases ruS ruK line rest st with h | ⟨cs, hc, hb, h⟩
      · rw [h] at hfin
        exact ih _ S hfin
      · rw [h] at hfin
        have hres := ih _ S hfin
        exact hres
    rcases hrec with h | ⟨x, hx1, hx2, hx3⟩
    · rcases mergeStepLine_enSections_origin ruK st line S h with h1 | ⟨h1, h2⟩
      · exact Or.inl h1
      · exact Or.inr ⟨line, List.mem_cons_self _ _, h1, h2⟩
    · exact Or.inr ⟨x, List.mem_cons_of_mem _ hx1, hx2, hx3⟩

theorem foldl_emit_mem {α β : Type} (f : List α → β → List α)
    (hf : ∀ acc x, ∃ sfx, f acc x = acc ++ sfx)
    (b : β) (y : α) (hy : ∀ acc, y ∈ f acc b) :
    ∀ (l : List β) (acc : List α), b ∈ l → y ∈ l.foldl f acc := by
  intro l
  induction l with
  | nil => intro acc hb; cases hb
  | cons c t ih =>
    intro acc hb
    rw [List.foldl_cons]
    rcases List.mem_cons.mp hb with h | h
    · subst h
      exact foldl_mem_of_append f hf t (f acc b) y (hy acc)
    · exact ih (f acc c) h

theorem addObsolete_eq (ruS : List (Line × List Line)) (E : List (Line × List Line))
    (sec : Line) (lns : List Line) (hS : alookup sec ruS = some lns) :
    addObsoleteSectionLines ruS E sec = lns.foldl (fun obsolete line =>
      if isHeaderLine line then obsolete
      else if '=' ∈ line then
        if '=' ∈ stripLead line then
          if pyStrip (beforeEq (stripLead line)) ∈ (alookup sec E).getD [] then obsolete
          else obsolete ++ [if line.head? = some ';' then line else [';', ' '] ++ line]
        else obsolete ++ [line]
      else obsolete ++ [line]) [] := by
  unfold addObsoleteSectionLines
  rw [hS]

theorem addObsolete_mem (ruS : List (Line × List Line)) (E : List (Line × List Line))
    (sec l : Line) (lns : List Line)
    (hS : alookup sec ruS = some lns) (hl : l ∈ lns)
    (hnh : isHeaderLine l = false) (heq : '=' ∈ l)
    (hk : pyStrip (beforeEq (stripLead l)) ∉ (alookup sec E).getD []) :
    commentize l ∈ addObsoleteSectionLines ruS E sec := by
  rw [addObsolete_eq ruS E sec lns hS]
  apply foldl_emit_mem _ ?hf l (commentize l) ?hy lns [] hl
  case hf =>
    intro acc x
    by_cases h1 : isHeaderLine x = true
    · exact ⟨[], by simp [h1]⟩
    · rw [Bool.not_eq_true] at h1
      by_cases h2 : '=' ∈ x
      · by_cases h3 : '=' ∈ stripLead x
        · by_cases h4 : pyStrip (beforeEq (stripLead x)) ∈ (alookup sec E).getD []
          · exact ⟨[], by simp [h1, h2, h3, h4]⟩
          · exact ⟨[if x.head? = some ';' then x else [';', ' '] ++ x],
              by simp [h1, h2, h3, h4]⟩
        · exact ⟨[x], by simp [h1, h2, h3]⟩
      · exact ⟨[x], by simp [h1, h2]⟩
  case hy =>
    intro acc
    have h3 : '=' ∈ stripLead l := eq_mem_stripLead l heq
    simp only [hnh, Bool.false_eq_true, if_false, heq, if_true, h3]
    rw [if_neg hk]
    unfold commentize
    simp

theorem activeKeysFrom_nil (c : Option Line) : activeKeysFrom c [] = [] := rfl

theorem activeKeysFrom_mem_append_left (c : Option Line) (A B : Text) (p : Line × Line)
    (h : p ∈ activeKeysFrom c A) : p ∈ activeKeysFrom c (A ++ B) := by
  rw [activeKeysFrom_append]
  exact List.mem_append_left _ h

theorem headerState_nil (c : Option Line) : headerState c [] = c := rfl

theorem headerState_snoc_nonheader (A : Text) (e : Line) (c : Option Line)
    (he : isHeaderLine e = false) :
    headerState c (A ++ [e]) = headerState c A := by
  rw [headerState_append, headerState_cons_nonheader _ e [] he, headerState_nil]

theorem headerState_snoc_header (A : Text) (e : Line) (c : Option Line)
    (he : isHeaderLine e = true) :
    headerState c (A ++ [e]) = some (stripLead e) := by
  rw [headerState_append, headerState_cons_header _ e [] he, headerState_nil]

theorem emittedFor_props (ruK : List (Line × List (Line × Line)))
    (hfacts : ∀ S km K l, alookup S ruK = some km → alookup K km = some l →
      '=' ∈ l ∧ isHeaderLine l = false ∧ K = pyStrip (beforeEq (stripLead l)) ∧
      (∀ c ∈ l, pyIsSpace c = true → c = ' ' ∨ c = '\t'))
    (cs line : Line) (hH : isHeaderLine line = false)
    (hk : '=' ∈ line ∧ line.head? ≠ some ';') :
    isHeaderLine (emittedLineFor ruK cs line) = false ∧
    (emittedLineFor ruK cs line).head? ≠ some ';' ∧
    '=' ∈ emittedLineFor ruK cs line ∧
    pyStrip (beforeEq (stripLead (emittedLineFor ruK cs line))) =
      pyStrip (beforeEq (stripLead line)) := by
  cases hkm : alookup cs ruK with
  | none =>
    have he : emittedLineFor ruK cs line = line := by
      simp only [emittedLineFor, hkm]
    rw [he]
    exact ⟨hH, hk.2, hk.1, rfl⟩
  | some km =>
    cases hkl : alookup (pyStrip (beforeEq line)) km with
    | none =>
      have he : emittedLineFor ruK cs line = line := by
        simp only [emittedLineFor, hkm, hkl]
      rw [he]
      exact ⟨hH, hk.2, hk.1, rfl⟩
    | some ruLine =>
      have he : emittedLineFor ruK cs line =
          (if ruLine.head? = some ';' then regexStripLead ruLine else ruLine) := by
        simp only [emittedLineFor, hkm, hkl]
      rw [he]
      obtain ⟨f1, f2, f3, f4⟩ := hfacts cs km (pyStrip (beforeEq line)) ruLine hkm hkl
      obtain ⟨g1, g2, g3, g4⟩ := emitted_props ruLine
        (if ruLine.head? = some ';' then regexStripLead ruLine else ruLine)
        (pyStrip (beforeEq line)) f4 f1 f2 f3 rfl
      have hKw : pyStrip (beforeEq line) = pyStrip (beforeEq (stripLead line)) := by
        rcases walkKey_cases line with hw | hw
        · exact hw
        · exfalso
          have hne := parseKey_head_ne_semi ruLine f4
          rw [← f3] at hne
          exact hne hw
      exact ⟨g1, g2, g3, by rw [g4, hKw]⟩

theorem walk_active_subset (ruS : List (Line × List Line))
    (ruK : List (Line × List (Line × Line)))
    (hfacts : ∀ S km K l, alookup S ruK = some km → alookup K km = some l →
      '=' ∈ l ∧ isHeaderLine l = false ∧ K = pyStrip (beforeEq (stripLead l)) ∧
      (∀ c ∈ l, pyIsSpace c = true → c = ' ' ∨ c = '\t')) :
    ∀ (rest : Text) (st : MergeSt),
      (∀ s, st.curr = some s → headerState none st.out = some s) →
      ∀ p ∈ activeKeysFrom st.curr rest,
        p ∈ activeKeysFrom none (mergeWalk ruS ruK rest st).out := by
  intro rest
  induction rest with
  | nil =>
    intro st hcur p hp
    rw [activeKeysFrom_nil] at hp
    cases hp
  | cons line rest ih =>
    intro st hcur p hp
    have hfinish : ∀ st1 : MergeSt,
        mergeStepLine ruK st line = st1 →
        (∀ s, st1.curr = some s → headerState none st1.out = some s) →
        (p ∈ activeKeysFrom st1.curr rest ∨ p ∈ activeKeysFrom none st1.out) →
        p ∈ activeKeysFrom none (mergeWalk ruS ruK (line :: rest) st).out := by
      intro st1 hst1 hcur1 hp1
      rcases mergeWalk_cons_cases ruS ruK line rest st with h | ⟨cs, hc, hb, h⟩
      · rw [hst1] at h
        rw [h]
        rcases hp1 with hp1 | hp1
        · exact ih st1 hcur1 p hp1
        · obtain ⟨sfx, hs⟩ := mergeWalk_out_mono ruS ruK rest st1
          rw [hs]
          exact activeKeysFrom_mem_append_left none _ sfx p hp1
      · rw [hst1] at hc h
        rw [h]
        rcases hp1 with hp1 | hp1
        · have hp2 : p ∈ activeKeysFrom none rest := by
            cases rest with
            | nil =>
              rw [hc, activeKeysFrom_nil] at hp1
              cases hp1
            | cons n t =>
              have hn : isHeaderLine n = true := hb
              rw [hc] at hp1
              rw [activeKeysFrom_header_cons none (some cs) n t hn]
              exact hp1
          have hvac : ∀ s, ({ st1 with
              out := st1.out ++ addObsoleteSectionLines ruS st1.enKeys cs
              curr := none } : MergeSt).curr = some s →
              headerState none ({ st1 with
                out := st1.out ++ addObsoleteSectionLines ruS st1.enKeys cs
                curr := none } : MergeSt).out = some s := by
            intro s hs
            cases hs
          exact ih _ hvac p hp2
        · obtain ⟨sfx, hs⟩ := mergeWalk_out_mono ruS ruK rest
            ({ st1 with
              out := st1.out ++ addObsoleteSectionLines ruS st1.enKeys cs
              curr := none } : MergeSt)
          rw [hs]
          show p ∈ activeKeysFrom none
            (st1.out ++ addObsoleteSectionLines ruS st1.enKeys cs ++ sfx)
          rw [List.append_assoc]
          exact activeKeysFrom_mem_append_left none _ _ p hp1
    by_cases hH : isHeaderLine line = true
    · refine hfinish _ (mergeStepLine_header ruK st line hH) ?_ ?_
      · intro s hs
        simp only at hs
        injection hs with hs
        subst hs
        exact headerState_snoc_header st.out line none hH
      · left
        rw [activeKeysFrom_cons_header st.curr line rest hH] at hp
        exact hp
    · rw [Bool.not_eq_true] at hH
      cases hc : st.curr with
      | none =>
        refine hfinish _ (mergeStepLine_none ruK st line hH hc) ?_ ?_
        · intro s hs
          simp only at hs
          rw [hc] at hs
          cases hs
        · left
          rw [hc, activeKeysFrom_cons_none line rest hH] at hp
          simp only
          rw [hc]
          exact hp
      | some cs =>
        have hhead : headerState none st.out = some cs := hcur cs hc
        by_cases hk : '=' ∈ line ∧ line.head? ≠ some ';'
        · refine hfinish _ (mergeStepLine_key ruK st line cs hH hc hk) ?_ ?_
          · intro s hs
            simp only at hs
            rw [hc] at hs
            injection hs with hs
            subst hs
            obtain ⟨g1, g2, g3, g4⟩ := emittedFor_props ruK hfacts cs line hH hk
            simp only
            rw [headerState_snoc_nonheader st.out _ none g1]
            exact hhead
          · rw [hc, activeKeysFrom_cons_key cs line rest hH hk] at hp
            obtain ⟨g1, g2, g3, g4⟩ := emittedFor_props ruK hfacts cs line hH hk
            rcases List.mem_cons.mp hp with hp | hp
            · right
              simp only
              rw [activeKeysFrom_append, hhead,
                activeKeysFrom_cons_key cs (emittedLineFor ruK cs line) [] g1 ⟨g3, g2⟩]
              apply List.mem_append_right
              rw [g4, ← hp]
              exact List.mem_cons_self _ _
            · left
              simp only
              rw [hc]
              exact hp
        · refine hfinish _ (mergeStepLine_skip ruK st line cs hH hc hk) ?_ ?_
          · intro s hs
            simp only at hs
            rw [hc] at hs
            injection hs with hs
            subst hs
            rw [headerState_snoc_nonheader st.out line none hH]
            exact hhead
          · left
            rw [hc, activeKeysFrom_cons_skip cs line rest hH hk] at hp
            simp only
            rw [hc]
            exact hp

theorem ruOnly_step_suffix (E : List Line) :
    ∀ (acc : Text) (x : Line × List Line), ∃ sfx,
      (if x.1 ∈ E then acc else acc ++ x.2 ++ [[]]) = acc ++ sfx := by
  intro acc x
  by_cases hmem : x.1 ∈ E
  · exact ⟨[], by rw [if_pos hmem, List.append_nil]⟩
  · exact ⟨x.2 ++ [[]], by rw [if_neg hmem, List.append_assoc]⟩

theorem aKF_foldl_ruOnly (E : List Line) (l : List (Line × List Line)) (A : Text)
    (p : Line × Line) (hp : p ∈ activeKeysFrom none A) :
    p ∈ activeKeysFrom none (l.foldl
      (fun acc sp => if sp.1 ∈ E then acc else acc ++ sp.2 ++ [[]]) A) := by
  obtain ⟨sfx, hs⟩ := foldl_append_suffix
    (fun acc sp => if sp.1 ∈ E then acc else acc ++ sp.2 ++ [[]])
    (ruOnly_step_suffix E) l A
  rw [hs]
  exact activeKeysFrom_mem_append_left none _ sfx p hp

theorem mem_foldl_ruOnly (E : List Line) (l : List (Line × List Line)) (A : Text)
    (x : Line) (hx : x ∈ A) :
    x ∈ l.foldl (fun acc sp => if sp.1 ∈ E then acc else acc ++ sp.2 ++ [[]]) A :=
  foldl_mem_of_append _ (ruOnly_step_suffix E) l A x hx

/-- Claim C5, amended: for a destination file whose whitespace is tame
(every whitespace character is a plain space or tab), every
`(section, key)` pair carried by an active `key=value` line of the
source file is still carried by an active line of the merged output:
the walk emits, for each active source line, either the source line
itself or the stored destination line for the same normalized key
(comment-stripped if needed), and neither the obsolete-line replay nor
blank-run collapsing removes any active line. -/
theorem merge_key_completeness (src dst : Text) (ht : tameText dst)
    (p : Line × Line) (hp : p ∈ activeKeys src) :
    p ∈ activeKeys (mergeLocaleFiles src dst) := by
  have hfacts : ∀ S km K l, alookup S (parseRuLines dst).2 = some km →
      alookup K km = some l →
      '=' ∈ l ∧ isHeaderLine l = false ∧ K = pyStrip (beforeEq (stripLead l)) ∧
      (∀ c ∈ l, pyIsSpace c = true → c = ' ' ∨ c = '\t') := by
    intro S km K l h1 h2
    obtain ⟨a, b, c, d, e⟩ := parse_store_facts dst S K l km h1 h2
    exact ⟨a, b, c, fun ch hch hsp => ht l d ch hch hsp⟩
  have hw := walk_active_subset (parseRuLines dst).1 (parseRuLines dst).2 hfacts src
    ⟨none, [], [], []⟩ (fun s hs => by cases hs) p hp
  show p ∈ activeKeysFrom none (mergeLocaleFiles src dst)
  simp only [mergeLocaleFiles]
  rw [activeKeysFrom_dropTrailingBlanks]
  show p ∈ activeKeysFrom none (collapseGo 1 0 _)
  rw [activeKeysFrom_collapseGo]
  exact aKF_foldl_ruOnly _ _ _ p hw

theorem merge_key_completeness_witness :
    tameText [lineOf "[s]", lineOf "k=x"] ∧
      (lineOf "[s]", lineOf "k") ∈
        activeKeys (mergeLocaleFiles [lineOf "[s]", lineOf "k=v"]
          [lineOf "[s]", lineOf "k=x"]) :=
  ⟨by unfold tameText; decide,
    merge_key_completeness [lineOf "[s]", lineOf "k=v"] [lineOf "[s]", lineOf "k=x"]
    (by unfold tameText; decide) (lineOf "[s]", lineOf "k") (by decide)⟩

theorem walk_tombstone (ruS : List (Line × List Line))
    (ruK : List (Line × List (Line × Line))) (S K l : Line) (lns : List Line)
    (hSlns : alookup S ruS = some lns) (hl : l ∈ lns)
    (hnh : isHeaderLine l = false) (heq : '=' ∈ l)
    (hKdef : K = pyStrip (beforeEq (stripLead l))) :
    ∀ (rest : Text) (st : MergeSt),
      (st.curr = some S → ∃ n t, rest = n :: t ∧ isHeaderLine n = false) →
      (st.curr = some S ∨ ∃ x, x ∈ rest ∧ isHeaderLine x = true ∧ stripLead x = S) →
      K ∉ (alookup S (mergeWalk ruS ruK rest st).enKeys).getD [] →
      commentize l ∈ (mergeWalk ruS ruK rest st).out := by
  intro rest
  induction rest with
  | nil =>
    intro st hok hS hfin
    rcases hS with hcS | ⟨x, hx, _, _⟩
    · obtain ⟨n, t, heqr, _⟩ := hok hcS
      cases heqr
    · cases hx
  | cons line rest ih =>
    intro st hok hS hfin
    have hA : (mergeStepLine ruK st line).curr = some S ∨
        ((mergeStepLine ruK st line).curr ≠ some S ∧
          ∃ x, x ∈ rest ∧ isHeaderLine x = true ∧ stripLead x = S) := by
      by_cases hcS : st.curr = some S
      · obtain ⟨n, t, heqr, hn⟩ := hok hcS
        have hlineH : isHeaderLine line = false := by
          injection heqr with e1 e2
          rw [e1]
          exact hn
        left
        rw [mergeStepLine_curr_nonheader ruK st line hlineH]
        exact hcS
      · obtain ⟨x, hx1, hx2, hx3⟩ := hS.resolve_left hcS
        by_cases hline : isHeaderLine line = true ∧ stripLead line = S
        · left
          rw [mergeStepLine_header ruK st line hline.1]
          show some (stripLead line) = some S
          rw [hline.2]
        · right
          constructor
          · by_cases hH : isHeaderLine line = true
            · rw [mergeStepLine_header ruK st line hH]
              show some (stripLead line) ≠ some S
              intro e
              injection e with e
              exact hline ⟨hH, e⟩
            · rw [Bool.not_eq_true] at hH
              rw [mergeStepLine_curr_nonheader ruK st line hH]
              exact hcS
          · rcases List.mem_cons.mp hx1 with e | hxr
            · exfalso
              rw [e] at hx2 hx3
              exact hline ⟨hx2, hx3⟩
            · exact ⟨x, hxr, hx2, hx3⟩
    rcases hA with hcurr1 | ⟨hne1, hopen2⟩
    · have hcore : ∀ (rest2 : Text),
          K ∉ (alookup S (mergeWalk ruS ruK rest2
            ({ mergeStepLine ruK st line with
              out := (mergeStepLine ruK st line).out ++
                addObsoleteSectionLines ruS (mergeStepLine ruK st line).enKeys S
              curr := none } : MergeSt)).enKeys).getD [] →
          commentize l ∈ (mergeWalk ruS ruK rest2
            ({ mergeStepLine ruK st line with
              out := (mergeStepLine ruK st line).out ++
                addObsoleteSectionLines ruS (mergeStepLine ruK st line).enKeys S
              curr := none } : MergeSt)).out := by
        intro rest2 hfin2
        obtain ⟨sfx, hs⟩ := mergeWalk_out_mono ruS ruK rest2 _
        rw [hs]
        apply List.mem_append_left
        show commentize l ∈ (mergeStepLine ruK st line).out ++
          addObsoleteSectionLines ruS (mergeStepLine ruK st line).enKeys S
        apply List.mem_append_right
        apply addObsolete_mem ruS (mergeStepLine ruK st line).enKeys S l lns hSlns hl hnh heq
        rw [← hKdef]
        intro hmemK
        apply hfin2
        have hsub := mergeWalk_enKeys_mono ruS ruK rest2
          ({ mergeStepLine ruK st line with
            out := (mergeStepLine ruK st line).out ++
              addObsoleteSectionLines ruS (mergeStepLine ruK st line).enKeys S
            curr := none } : MergeSt) S
        exact hsub hmemK
      cases rest with
      | nil =>
        have hb : (match ([] : Text) with | [] => true | n :: _ => isHeaderLine n) = true :=
          rfl
        rw [mergeWalk_cons_b_close ruS ruK line [] st S hb hcurr1] at hfin ⊢
        exact hcore [] hfin
      | cons n t =>
        cases hh : isHeaderLine n with
        | true =>
          have hb : (match (n :: t : Text) with
              | [] => true | n :: _ => isHeaderLine n) = true := hh
          rw [mergeWalk_cons_b_close ruS ruK line (n :: t) st S hb hcurr1] at hfin ⊢
          exact hcore (n :: t) hfin
        | false =>
          rw [mergeWalk_cons_nb ruS ruK line n t st hh] at hfin ⊢
          exact ih (mergeStepLine ruK st line)
            (fun _ => ⟨n, t, rfl, hh⟩) (Or.inl hcurr1) hfin
    · rcases mergeWalk_cons_cases ruS ruK line rest st with h | ⟨cs, hc, hb, h⟩
      · rw [h] at hfin ⊢
        exact ih (mergeStepLine ruK st line)
          (fun hcon => absurd hcon hne1) (Or.inr hopen2) hfin
      · rw [h] at hfin ⊢
        refine ih _ ?_ (Or.inr hopen2) hfin
        intro hcon
        exact Option.noConfusion hcon

theorem mergeStepLine_control (ruK ruKb : List (Line × List (Line × Line)))
    (st stb : MergeSt) (line : Line) (h1 : st.curr = stb.curr)
    (h2 : st.enSections = stb.enSections) (h3 : st.enKeys = stb.enKeys) :
    (mergeStepLine ruK st line).curr = (mergeStepLine ruKb stb line).curr ∧
    (mergeStepLine ruK st line).enSections = (mergeStepLine ruKb stb line).enSections ∧
    (mergeStepLine ruK st line).enKeys = (mergeStepLine ruKb stb line).enKeys := by
  by_cases hH : isHeaderLine line = true
  · rw [mergeStepLine_header ruK st line hH, mergeStepLine_header ruKb stb line hH]
    refine ⟨rfl, ?_, ?_⟩
    · show (if stripLead line ∈ st.enSections then st.enSections
        else st.enSections ++ [stripLead line]) = _
      rw [h2]
    · show setdefault (stripLead line) [] st.enKeys = setdefault (stripLead line) [] stb.enKeys
      rw [h3]
  · rw [Bool.not_eq_true] at hH
    cases hc : st.curr with
    | none =>
      have hcb : stb.curr = none := by rw [← h1]; exact hc
      rw [mergeStepLine_none ruK st line hH hc, mergeStepLine_none ruKb stb line hH hcb]
      exact ⟨h1, h2, h3⟩
    | some cs =>
      have hcb : stb.curr = some cs := by rw [← h1]; exact hc
      by_cases hk : '=' ∈ line ∧ line.head? ≠ some ';'
      · rw [mergeStepLine_key ruK st line cs hH hc hk,
          mergeStepLine_key ruKb stb line cs hH hcb hk]
        refine ⟨h1, h2, ?_⟩
        show aset cs _ st.enKeys = aset cs _ stb.enKeys
        rw [h3]
      · rw [mergeStepLine_skip ruK st line cs hH hc hk,
          mergeStepLine_skip ruKb stb line cs hH hcb hk]
        exact ⟨h1, h2, h3⟩

theorem mergeWalk_control_indep (ruS ruSb : List (Line × List Line))
    (ruK ruKb : List (Line × List (Line × Line))) :
    ∀ (rest : Text) (st stb : MergeSt), st.curr = stb.curr →
      st.enSections = stb.enSections → st.enKeys = stb.enKeys →
      (mergeWalk ruS ruK rest st).curr = (mergeWalk ruSb ruKb rest stb).curr ∧
      (mergeWalk ruS ruK rest st).enSections = (mergeWalk ruSb ruKb rest stb).enSections ∧
      (mergeWalk ruS ruK rest st).enKeys = (mergeWalk ruSb ruKb rest stb).enKeys := by
  intro rest
  induction rest with
  | nil => exact fun st stb a b c => ⟨a, b, c⟩
  | cons line rest ih =>
    intro st stb h1 h2 h3
    obtain ⟨g1, g2, g3⟩ := mergeStepLine_control ruK ruKb st stb line h1 h2 h3
    cases rest with
    | nil =>
      cases hc : (mergeStepLine ruK st line).curr with
      | none =>
        have hcb : (mergeStepLine ruKb stb line).curr = none := by rw [← g1]; exact hc
        rw [mergeWalk_cons_b_none ruS ruK line [] st rfl hc,
          mergeWalk_cons_b_none ruSb ruKb line [] stb rfl hcb, mergeWalk_nil, mergeWalk_nil]
        exact ⟨g1, g2, g3⟩
      | some cs =>
        have hcb : (mergeStepLine ruKb stb line).curr = some cs := by rw [← g1]; exact hc
        rw [mergeWalk_cons_b_close ruS ruK line [] st cs rfl hc,
          mergeWalk_cons_b_close ruSb ruKb line [] stb cs rfl hcb,
          mergeWalk_nil, mergeWalk_nil]
        exact ⟨rfl, g2, g3⟩
    | cons n t =>
      cases hh : isHeaderLine n with
      | false =>
        rw [mergeWalk_cons_nb ruS ruK line n t st hh,
          mergeWalk_cons_nb ruSb ruKb line n t stb hh]
        exact ih _ _ g1 g2 g3
      | true =>
        cases hc : (mergeStepLine ruK st line).curr with
        | none =>
          have hcb : (mergeStepLine ruKb stb line).curr = none := by rw [← g1]; exact hc
          rw [mergeWalk_cons_b_none ruS ruK line (n :: t) st hh hc,
            mergeWalk_cons_b_none ruSb ruKb line (n :: t) stb hh hcb]
          exact ih _ _ g1 g2 g3
        | some cs =>
          have hcb : (mergeStepLine ruKb stb line).curr = some cs := by rw [← g1]; exact hc
          rw [mergeWalk_cons_b_close ruS ruK line (n :: t) st cs hh hc,
            mergeWalk_cons_b_close ruSb ruKb line (n :: t) stb cs hh hcb]
          exact ih _ _ rfl g2 g3

theorem commentize_ne_nil (l : Line) : commentize l ≠ [] := by
  unfold commentize
  by_cases h : l.head? = some ';'
  · rw [if_pos h]
    intro e
    rw [e] at h
    cases h
  · rw [if_neg h]
    simp

/-- Claim C6, amended: for every key `K` that `parse_ru_lines` registers
for the destination file under a section `S` that the source walk also
visits (`S ∈ srcEnSections src`), if the source does not itself define
`K` in `S` then the merged output contains the stored destination line
comment-prefixed (`commentize`): when the walk closes `S`,
`add_obsolete_section_lines` replays the stored section lines and
prefixes the unmatched `key=value` line with `"; "`. Destination-only
sections are instead appended verbatim, never commented. -/
theorem dst_only_key_in_shared_section_tombstoned (src dst : Text) (S K l : Line)
    (km : List (Line × Line))
    (h1 : alookup S (parseRuLines dst).2 = some km)
    (h2 : alookup K km = some l)
    (hS : S ∈ srcEnSections src)
    (hK : K ∉ (alookup S (srcEnKeys src)).getD []) :
    commentize l ∈ mergeLocaleFiles src dst := by
  obtain ⟨heq, hnh, hKdef, hmem, lns, hSlns, hl⟩ := parse_store_facts dst S K l km h1 h2
  have hind := mergeWalk_control_indep (parseRuLines dst).1 [] (parseRuLines dst).2 []
    src ⟨none, [], [], []⟩ ⟨none, [], [], []⟩ rfl rfl rfl
  have hSreal : S ∈ (mergeWalk (parseRuLines dst).1 (parseRuLines dst).2 src
      ⟨none, [], [], []⟩).enSections := by
    unfold srcEnSections at hS
    rw [hind.2.1]
    exact hS
  have hKreal : K ∉ (alookup S (mergeWalk (parseRuLines dst).1 (parseRuLines dst).2 src
      ⟨none, [], [], []⟩).enKeys).getD [] := by
    unfold srcEnKeys at hK
    rw [hind.2.2]
    exact hK
  have hopen : ∃ x, x ∈ src ∧ isHeaderLine x = true ∧ stripLead x = S := by
    rcases mergeWalk_enSections_origin (parseRuLines dst).1 (parseRuLines dst).2 src
      ⟨none, [], [], []⟩ S hSreal with h | h
    · cases h
    · exact h
  have htomb := walk_tombstone (parseRuLines dst).1 (parseRuLines dst).2 S K l lns
    hSlns hl hnh heq hKdef src ⟨none, [], [], []⟩
    (fun hcon => Option.noConfusion hcon) (Or.inr hopen) hKreal
  have hne : commentize l ≠ [] := commentize_ne_nil l
  simp only [mergeLocaleFiles]
  apply mem_dropTrailingBlanks
  · show commentize l ∈ collapseGo 1 0 _
    apply mem_collapseGo
    · exact mem_foldl_ruOnly _ _ _ _ htomb
    · exact hne
  · exact hne

theorem dst_only_key_in_shared_section_tombstoned_witness :
    alookup (lineOf "[s]") (parseRuLines [lineOf "[s]", lineOf "b=2"]).2 =
        some [(lineOf "b", lineOf "b=2")] ∧
      alookup (lineOf "b") [(lineOf "b", lineOf "b=2")] = some (lineOf "b=2") ∧
      lineOf "[s]" ∈ srcEnSections [lineOf "[s]", lineOf "a=1"] ∧
      lineOf "b" ∉ (alookup (lineOf "[s]")
        (srcEnKeys [lineOf "[s]", lineOf "a=1"])).getD [] ∧
      commentize (lineOf "b=2") ∈
        mergeLocaleFiles [lineOf "[s]", lineOf "a=1"] [lineOf "[s]", lineOf "b=2"] :=
  ⟨by decide, by decide, by decide, by decide,
    dst_only_key_in_shared_section_tombstoned [lineOf "[s]", lineOf "a=1"]
      [lineOf "[s]", lineOf "b=2"] (lineOf "[s]") (lineOf "b") (lineOf "b=2")
      [(lineOf "b", lineOf "b=2")] (by decide) (by decide) (by decide) (by decide)⟩

end FactorioLocale
